import Mathlib

/-!
# OsmAnd-core resources manager: registry, catalog refresh, install, uninstall, rescan

A shallow embedding of `src/src/ResourcesManager_P.cpp`.

* `QString` is the list of its characters, `QHash<QString, V>` an association list with
  unique keys (`AList`), whose `insert` replaces the value stored under an existing key.
* Unsigned 64-bit values are natural numbers.
* The collaborators of the manager that live outside the file (the web client, the XML
  stream reader, the archive reader, the OBF reader, the file system) are explicit
  parameters: each function takes their behaviour as an argument and returns the new state.
-/

namespace OsmAnd

/-! ## Strings -/

/-- A `QString`, as the list of its characters. -/
abbrev QString := List Char

/-- One left-to-right pass of `QString::replace(before, after)`: `skip` counts the characters
of a match that are still to be passed over; matches do not overlap and the text already
written out is not searched again. -/
def replaceFrom (before after : QString) : Nat → QString → QString
  | _, [] => []
  | skip + 1, _ :: cs => replaceFrom before after skip cs
  | 0, c :: cs =>
      if before.isPrefixOf (c :: cs) then
        after ++ replaceFrom before after (before.length - 1) cs
      else
        c :: replaceFrom before after 0 cs

/-- The call `QString(s).replace(before, after)` for a non-empty `before`. -/
def QString.replace (s before after : QString) : QString :=
  replaceFrom before after 0 s

/-- The call `s.endsWith(suffix)`. -/
def QString.endsWith (s suffix : QString) : Bool :=
  suffix.isSuffixOf s

/-- The literal `QLatin1String(".zip")`. -/
def dotZip : QString := ".zip".toList

/-! ## Data model -/

/-- The enum `ResourceType`. -/
inductive ResourceType where
  | Unknown
  | MapRegion
  | VoicePack
  deriving DecidableEq, Repr

/-- The class `ResourceInRepository`, with the constructor's argument order
`(name, type, timestamp, contentSize, containerDownloadUrl, containerSize)`. -/
structure ResourceInRepository where
  name : QString
  type : ResourceType
  timestamp : Nat
  contentSize : Nat
  containerDownloadUrl : QString
  containerSize : Nat
  deriving DecidableEq, Repr

/-- A `QHash<QString, V>`: keys are unique, iteration order is the order of the entries. -/
abbrev QHash (V : Type) := AList (fun _ : QString => V)

/-- The values of a hash in iteration order. -/
def QHash.values {V : Type} (h : QHash V) : List V :=
  h.entries.map (fun e => e.2)

/-! ## Catalog refresh -/

/-- What `QXmlStreamReader::readNext` yields: a start element with its attributes, or any
other token. -/
inductive XmlToken where
  | StartElement (tagName : QString) (attributes : List (QString × QString))
  | Other
  deriving DecidableEq, Repr

/-- The run of a `QXmlStreamReader` over a body: the tokens read before the reader stops, and
whether it stopped on an error (`hasError()`) rather than at the end of the document. -/
structure XmlStream where
  tokens : List XmlToken
  hasError : Bool
  deriving DecidableEq, Repr

/-- The outcome of `WebClient::downloadData`: the body (`none` when the returned byte array
is null), seen through the XML reader, and `requestResult->isSuccessful()`. -/
structure DownloadResult where
  data : Option XmlStream
  isSuccessful : Bool
  deriving DecidableEq, Repr

/-- Library functions the catalog parser calls. -/
structure TextCodec where
  /-- The call `QStringRef::toULongLong(&ok)`: `none` when `ok` is false. -/
  toULongLong : QString → Option Nat
  /-- The call `QUrl::toPercentEncoding`. -/
  toPercentEncoding : QString → QString

/-- The call `QXmlStreamAttributes::value(name)`: the value of the first attribute of that
name, `none` for the null reference. -/
def attributesValue (attribs : List (QString × QString)) (name : QString) : Option QString :=
  (attribs.find? (fun a => a.1 == name)).map (fun a => a.2)

/-- The body of the parse loop of `refreshRepositoryIndex` for one token: the entry pushed
to `resources`, or `none` where the loop runs `continue`. -/
def parseIndexToken (codec : TextCodec) (repositoryBaseUrl : QString) :
    XmlToken → Option ResourceInRepository
  | .Other => none
  | .StartElement _ attribs =>
    match attributesValue attribs "type".toList with
    | none => none
    | some resourceTypeValue =>
    match attributesValue attribs "name".toList with
    | none => none
    | some nameValue =>
    match attributesValue attribs "timestamp".toList with
    | none => none
    | some timestampValue =>
    match attributesValue attribs "containerSize".toList with
    | none => none
    | some containerSizeValue =>
    match attributesValue attribs "contentSize".toList with
    | none => none
    | some contentSizeValue =>
      let name := nameValue
      let resourceType₀ := ResourceType.Unknown
      let resourceType₁ :=
        if resourceTypeValue = "map".toList then ResourceType.MapRegion else resourceType₀
      let resourceType :=
        if resourceTypeValue = "voice".toList then ResourceType.VoicePack else resourceType₁
      if resourceType = ResourceType.Unknown then none
      else
        match codec.toULongLong timestampValue with
        | none => none
        | some timestamp =>
        match codec.toULongLong containerSizeValue with
        | none => none
        | some containerSize =>
        match codec.toULongLong contentSizeValue with
        | none => none
        | some contentSize =>
          some
            { name := QString.replace name dotZip []
              type := resourceType
              timestamp := timestamp
              contentSize := contentSize
              containerDownloadUrl :=
                repositoryBaseUrl ++ "/download.php?file=".toList ++ codec.toPercentEncoding name
              containerSize := containerSize }

/-- The parse loop of `refreshRepositoryIndex`: the list `resources` after the last token. -/
def parseIndexTokens (codec : TextCodec) (repositoryBaseUrl : QString)
    (tokens : List XmlToken) : List ResourceInRepository :=
  tokens.foldl
    (fun resources token =>
      match parseIndexToken codec repositoryBaseUrl token with
      | none => resources
      | some resource => resources ++ [resource])
    []

/-- The "save result" step of `refreshRepositoryIndex`: `clear()` followed by one `insert`
per entry, under the entry's name. -/
def saveIndex (resources : List ResourceInRepository) : QHash ResourceInRepository :=
  resources.foldl (fun index entry => index.insert entry.name entry) ∅

/-- The method `ResourcesManager_P::refreshRepositoryIndex`: the returned flag and the
repository index (`_repositoryIndex`) after the call. -/
def refreshRepositoryIndex (codec : TextCodec) (repositoryBaseUrl : QString)
    (download : DownloadResult) (repositoryIndex : QHash ResourceInRepository) :
    Bool × QHash ResourceInRepository :=
  match download.data with
  | none => (false, repositoryIndex)
  | some xmlReader =>
    if !download.isSuccessful then (false, repositoryIndex)
    else
      let resources := parseIndexTokens codec repositoryBaseUrl xmlReader.tokens
      if xmlReader.hasError then (false, repositoryIndex)
      else (true, saveIndex resources)

/-- Modelled from the spec: `QStringRef::toULongLong` is a library function outside the
sources; the specification has the numeric attributes parsed as unsigned 64-bit, taken here
as decimal digits only, at least one, value below `2^64`. Used where an example needs a
concrete reader. -/
def decimalU64 (s : QString) : Option Nat :=
  if s ≠ [] ∧ s.all Char.isDigit then
    let n := s.foldl (fun acc c => 10 * acc + (c.toNat - 48)) 0
    if n < 2 ^ 64 then some n else none
  else none

/-- A concrete codec for examples: decimal numbers, names passed through unencoded. -/
def exampleCodec : TextCodec where
  toULongLong := decimalU64
  toPercentEncoding := fun s => s

/-! ## Local resources and the collaborators of the install pipeline -/

/-- The result of `ObfReader::obtainInfo`, kept as a token: the manager only stores it. -/
structure ObfInfo where
  id : Nat
  deriving DecidableEq, Repr

/-- The class `LocalResource` with the constructor's argument order
`(name, type, timestamp, contentSize, localPath)`; a `LocalObfResource` also carries the
OBF information it was built from (`none` for a voice pack or a null pointer). -/
structure LocalResource where
  name : QString
  type : ResourceType
  timestamp : Nat
  contentSize : Nat
  localPath : QString
  obfInfo : Option ObfInfo
  deriving DecidableEq, Repr

/-- The configuration held by the owner (`ResourcesManager`). -/
structure ResourcesManager where
  localStoragePath : QString
  extraStoragePaths : List QString
  localTemporaryPath : QString
  repositoryBaseUrl : QString
  deriving DecidableEq, Repr

/-- An `ArchiveReader::Item`; a default-constructed item is not valid. -/
structure ArchiveItem where
  name : QString
  isValid : Bool
  modificationTime : Nat
  deriving DecidableEq, Repr

/-- The fields of `QFileInfo` the scanner reads. -/
structure QFileInfo where
  absoluteFilePath : QString
  fileName : QString
  size : Nat
  deriving DecidableEq, Repr

/-- The collaborators of the manager over a world `W` (file system and archives): the
archive reader, the OBF reader, `QFile`, `QDir` and `Utilities::findFiles`. Calls that
change the world return the new world. -/
structure Collaborators (W : Type) where
  /-- The call `ArchiveReader(archive).getItems(&ok)`: `none` when `ok` is false. -/
  getItems : W → QString → Option (List ArchiveItem)
  /-- The call `ArchiveReader(archive).extractItemToFile(itemName, fileName)`. -/
  extractItemToFile : W → QString → QString → QString → Bool × W
  /-- The call `ArchiveReader(archive).extractAllItemsTo(directory, &contentSize)`: the
  flag, the accumulated size and the new world. -/
  extractAllItemsTo : W → QString → QString → Bool × Nat × W
  /-- The call `QDir(directory).absoluteFilePath(name)`. -/
  absoluteFilePath : QString → QString → QString
  /-- The call `QFile(path).open(QIODevice::ReadOnly)`. -/
  openReadOnly : W → QString → Bool
  /-- The call `QFile(path).size()` on an open file. -/
  fileSize : W → QString → Nat
  /-- The call `ObfReader(file).obtainInfo()`: `none` for a null pointer. -/
  obtainInfo : W → QString → Option ObfInfo
  /-- The timestamp the constructor of `LocalObfResource` gives an entry built from this
  information (the constructor receives no timestamp argument). -/
  obfTimestamp : Option ObfInfo → Nat
  /-- The call `QFile(path).remove()`. -/
  removeFile : W → QString → Bool × W
  /-- The call `QDir(path).removeRecursively()`. -/
  removeRecursively : W → QString → Bool × W
  /-- Open for writing with truncation, stream one unsigned number, flush and close. -/
  writeNumber : W → QString → Nat → W
  /-- Open as read-only text and stream one unsigned number: `none` when the open fails. -/
  readNumber : W → QString → Option Nat
  /-- The call `QFile(path).exists()`. -/
  fileExists : W → QString → Bool
  /-- The call `QFileInfo(path).lastModified().toMSecsSinceEpoch()`. -/
  lastModified : W → QString → Nat
  /-- The call `Utilities::findFiles(directory, pattern, out, false)`. -/
  findFiles : W → QString → QString → List QFileInfo
  /-- The call `Utilities::findDirectories(directory, pattern, out, false)`. -/
  findDirectories : W → QString → QString → List QFileInfo

/-- The constructor `LocalObfResource(name, type, contentSize, localPath, obfInfo)`. -/
def LocalObfResource {W : Type} (c : Collaborators W) (name : QString) (type : ResourceType)
    (contentSize : Nat) (localPath : QString) (obfInfo : Option ObfInfo) : LocalResource :=
  { name := name
    type := type
    timestamp := c.obfTimestamp obfInfo
    contentSize := contentSize
    localPath := localPath
    obfInfo := obfInfo }

/-! ## Local scanner -/

/-- The first loop of `rescanLocalStoragePath` for one `*.obf` file. -/
def rescanMapRegionFile {W : Type} (c : Collaborators W) (w : W)
    (outResult : QHash LocalResource) (mapRegionFile : QFileInfo) : QHash LocalResource :=
  let filePath := mapRegionFile.absoluteFilePath
  if !c.openReadOnly w filePath then outResult
  else
    let obfInfo := c.obtainInfo w filePath
    let name := mapRegionFile.fileName
    outResult.insert name
      (LocalObfResource c name ResourceType.MapRegion mapRegionFile.size filePath obfInfo)

/-- The second loop of `rescanLocalStoragePath` for one `*.voice` directory. -/
def rescanVoicePackDirectory {W : Type} (c : Collaborators W) (w : W)
    (outResult : QHash LocalResource) (voicePackDirectory : QFileInfo) : QHash LocalResource :=
  let dirPath := voicePackDirectory.absoluteFilePath
  let timestamp :=
    match c.readNumber w (c.absoluteFilePath dirPath ".timestamp".toList) with
    | some t => t
    | none =>
      let voiceConfig := c.absoluteFilePath dirPath "_config.p".toList
      if c.fileExists w voiceConfig then c.lastModified w voiceConfig else 0
  let contentSize :=
    match c.readNumber w (c.absoluteFilePath dirPath ".size".toList) with
    | some s => s
    | none => 0
  let name := voicePackDirectory.fileName
  outResult.insert name
    { name := name
      type := ResourceType.VoicePack
      timestamp := timestamp
      contentSize := contentSize
      localPath := dirPath
      obfInfo := none }

/-- The method `ResourcesManager_P::rescanLocalStoragePath`. -/
def rescanLocalStoragePath {W : Type} (c : Collaborators W) (w : W) (storagePath : QString)
    (outResult : QHash LocalResource) : Bool × QHash LocalResource :=
  let mapRegionFiles := c.findFiles w storagePath "*.obf".toList
  let outResult₁ := mapRegionFiles.foldl (rescanMapRegionFile c w) outResult
  let voicePackDirectories := c.findDirectories w storagePath "*.voice".toList
  let outResult₂ := voicePackDirectories.foldl (rescanVoicePackDirectory c w) outResult₁
  (true, outResult₂)

/-- The loop of `rescanLocalStoragePaths` over the extra storage paths, leaving at the
first path whose scan fails. -/
def rescanExtraStoragePaths {W : Type} (c : Collaborators W) (w : W) :
    List QString → QHash LocalResource → Bool × QHash LocalResource
  | [], localResources => (true, localResources)
  | extraStoragePath :: rest, localResources =>
    match rescanLocalStoragePath c w extraStoragePath localResources with
    | (false, localResources₁) => (false, localResources₁)
    | (true, localResources₁) => rescanExtraStoragePaths c w rest localResources₁

/-- The method `ResourcesManager_P::rescanLocalStoragePaths`: the flag and `_localResources`
after the call. -/
def rescanLocalStoragePaths {W : Type} (c : Collaborators W) (owner : ResourcesManager)
    (w : W) (localResources : QHash LocalResource) : Bool × QHash LocalResource :=
  match rescanLocalStoragePath c w owner.localStoragePath ∅ with
  | (false, _) => (false, localResources)
  | (true, scanned) =>
    match rescanExtraStoragePaths c w owner.extraStoragePaths scanned with
    | (false, _) => (false, localResources)
    | (true, scanned₁) => (true, scanned₁)

/-! ## Registry queries -/

/-- The method `getLocalResource`. -/
def getLocalResource (localResources : QHash LocalResource) (name : QString) :
    Option LocalResource :=
  localResources.lookup name

/-- The method `getResourceInRepository`. -/
def getResourceInRepository (repositoryIndex : QHash ResourceInRepository) (name : QString) :
    Option ResourceInRepository :=
  repositoryIndex.lookup name

/-- The method `isResourceInstalled`. -/
def isResourceInstalled (localResources : QHash LocalResource) (name : QString) : Bool :=
  (localResources.lookup name).isSome

/-- The method `updateAvailableInRepositoryFor`. -/
def updateAvailableInRepositoryFor (localResources : QHash LocalResource)
    (repositoryIndex : QHash ResourceInRepository) (name : QString) : Bool :=
  match getResourceInRepository repositoryIndex name with
  | none => false
  | some resourceInRepository =>
    match getLocalResource localResources name with
    | none => false
    | some localResource => decide (localResource.timestamp < resourceInRepository.timestamp)

/-- The method `getAvailableUpdatesFromRepository`: one pass over the values of
`_localResources`. -/
def getAvailableUpdatesFromRepository (localResources : QHash LocalResource)
    (repositoryIndex : QHash ResourceInRepository) : List QString :=
  (QHash.values localResources).foldl
    (fun resourcesWithUpdates localResource =>
      match getResourceInRepository repositoryIndex localResource.name with
      | none => resourcesWithUpdates
      | some resourceInRepository =>
        if localResource.timestamp < resourceInRepository.timestamp then
          resourcesWithUpdates ++ [localResource.name]
        else resourcesWithUpdates)
    []

/-! ## Uninstall -/

/-- The method `uninstallMapRegion` (the removal lock is a comment in the source). -/
def uninstallMapRegion {W : Type} (c : Collaborators W) (w : W)
    (localResource : LocalResource) : Bool × W :=
  c.removeFile w localResource.localPath

/-- The method `uninstallVoicePack`. -/
def uninstallVoicePack {W : Type} (c : Collaborators W) (w : W)
    (localResource : LocalResource) : Bool × W :=
  c.removeRecursively w localResource.localPath

/-- The method `uninstallResource`: the flag, the world and `_localResources` afterwards. -/
def uninstallResource {W : Type} (c : Collaborators W) (w : W)
    (localResources : QHash LocalResource) (name : QString) :
    Bool × W × QHash LocalResource :=
  match localResources.lookup name with
  | none => (false, w, localResources)
  | some resource =>
    match resource.type with
    | ResourceType.MapRegion =>
      match uninstallMapRegion c w resource with
      | (false, w₁) => (false, w₁, localResources)
      | (true, w₁) => (true, w₁, localResources.erase name)
    | ResourceType.VoicePack =>
      match uninstallVoicePack c w resource with
      | (false, w₁) => (false, w₁, localResources)
      | (true, w₁) => (true, w₁, localResources.erase name)
    | ResourceType.Unknown => (false, w, localResources)

/-! ## Install from file -/

/-- The method `installMapRegionFromFile`. -/
def installMapRegionFromFile {W : Type} (c : Collaborators W) (owner : ResourcesManager)
    (w : W) (localResources : QHash LocalResource) (name filePath : QString) :
    Bool × W × QHash LocalResource :=
  match c.getItems w filePath with
  | none => (false, w, localResources)
  | some archiveItems =>
    match archiveItems.find?
        (fun archiveItem => archiveItem.isValid && archiveItem.name.endsWith ".obf".toList) with
    | none => (false, w, localResources)
    | some obfArchiveItem =>
      let localFileName := c.absoluteFilePath owner.localStoragePath name
      match c.extractItemToFile w filePath obfArchiveItem.name localFileName with
      | (false, w₁) => (false, w₁, localResources)
      | (true, w₁) =>
        if !c.openReadOnly w₁ localFileName then
          (false, (c.removeFile w₁ localFileName).2, localResources)
        else
          let fileSize := c.fileSize w₁ localFileName
          let obfInfo := c.obtainInfo w₁ localFileName
          (true, w₁,
            localResources.insert name
              (LocalObfResource c name ResourceType.MapRegion fileSize localFileName obfInfo))

/-- The method `installVoicePackFromFile`. -/
def installVoicePackFromFile {W : Type} (c : Collaborators W) (owner : ResourcesManager)
    (w : W) (localResources : QHash LocalResource) (name filePath : QString) :
    Bool × W × QHash LocalResource :=
  match c.getItems w filePath with
  | none => (false, w, localResources)
  | some archiveItems =>
    match archiveItems.find?
        (fun archiveItem => archiveItem.isValid && archiveItem.name == "_config.p".toList) with
    | none => (false, w, localResources)
    | some voicePackConfigItem =>
      let localDirectoryName := c.absoluteFilePath owner.localStoragePath name
      match c.extractAllItemsTo w filePath localDirectoryName with
      | (false, _, w₁) => (false, w₁, localResources)
      | (true, contentSize, w₁) =>
        let w₂ := c.writeNumber w₁ (c.absoluteFilePath localDirectoryName ".timestamp".toList)
          voicePackConfigItem.modificationTime
        let w₃ := c.writeNumber w₂ (c.absoluteFilePath localDirectoryName ".size".toList)
          contentSize
        (true, w₃,
          localResources.insert name
            { name := name
              type := ResourceType.VoicePack
              timestamp := voicePackConfigItem.modificationTime
              contentSize := contentSize
              localPath := localDirectoryName
              obfInfo := none })

/-- The method `installFromFile(name, filePath, resourceType)`. -/
def installFromFile {W : Type} (c : Collaborators W) (owner : ResourcesManager) (w : W)
    (localResources : QHash LocalResource) (name filePath : QString)
    (resourceType : ResourceType) : Bool × W × QHash LocalResource :=
  match localResources.lookup name with
  | some _ => (false, w, localResources)
  | none =>
    match resourceType with
    | ResourceType.MapRegion => installMapRegionFromFile c owner w localResources name filePath
    | ResourceType.VoicePack => installVoicePackFromFile c owner w localResources name filePath
    | ResourceType.Unknown => (false, w, localResources)

/-- The call `QFileInfo(filePath).fileName()`: what follows the last separator. -/
def fileNameOfPath (filePath : QString) : QString :=
  (filePath.reverse.takeWhile (fun ch => ch != '/')).reverse

/-- The name `installFromFile(filePath, resourceType)` and `updateFromFile(filePath)` guess
from the file name. -/
def guessedResourceName (filePath : QString) : QString :=
  QString.replace (fileNameOfPath filePath) dotZip []

/-- The method `installFromFile(filePath, resourceType)`. -/
def installFromFileGuessingName {W : Type} (c : Collaborators W) (owner : ResourcesManager)
    (w : W) (localResources : QHash LocalResource) (filePath : QString)
    (resourceType : ResourceType) : Bool × W × QHash LocalResource :=
  installFromFile c owner w localResources (guessedResourceName filePath) filePath resourceType

/-! ## Update from file -/

/-- The method `updateFromFile(name, filePath)`. The function returns `false` as soon as
`find(name)` is not `end()`; past that test the iterator is `end()` and the next statement
dereferences it, which has no defined behaviour: the result is `none` there, and the
`switch` below it is only reached through that dereference. -/
def updateFromFile {W : Type} (_c : Collaborators W) (_owner : ResourcesManager) (w : W)
    (localResources : QHash LocalResource) (name _filePath : QString) :
    Option (Bool × W × QHash LocalResource) :=
  match localResources.lookup name with
  | some _ => some (false, w, localResources)
  | none => none

/-! ## Definitions used to state the properties -/

/-- The entry a list holds last under a name: the one a sequence of `insert` calls leaves
in a hash. -/
def lastNamed {V : Type} (nameOf : V → QString) (name : QString) (entries : List V) :
    Option V :=
  entries.reverse.find? (fun e => nameOf e == name)

/-- Whether an element carries an attribute of the given name. -/
def carriesAttribute (attribs : List (QString × QString)) (name : QString) : Bool :=
  attribs.any (fun a => a.1 == name)

/-- Whether the attribute of the given name is there and reads as an unsigned 64-bit
number. -/
def parsesAsU64 (codec : TextCodec) (attribs : List (QString × QString)) (name : QString) :
    Bool :=
  match attributesValue attribs name with
  | some v => (codec.toULongLong v).isSome
  | none => false

/-- The catalog's condition on an element, in the words of the specification: all five
attributes are there, the type is `map` or `voice`, the three numbers parse. -/
def isAcceptedElement (codec : TextCodec) (attribs : List (QString × QString)) : Bool :=
  carriesAttribute attribs "type".toList
    && carriesAttribute attribs "name".toList
    && carriesAttribute attribs "timestamp".toList
    && carriesAttribute attribs "containerSize".toList
    && carriesAttribute attribs "contentSize".toList
    && (attributesValue attribs "type".toList == some "map".toList
        || attributesValue attribs "type".toList == some "voice".toList)
    && parsesAsU64 codec attribs "timestamp".toList
    && parsesAsU64 codec attribs "containerSize".toList
    && parsesAsU64 codec attribs "contentSize".toList

/-- The key the specification describes: the name without one trailing `.zip`. -/
def stripTrailingZip (name : QString) : QString :=
  if name.endsWith dotZip then name.take (name.length - dotZip.length) else name

/-- A catalog element with the five attributes, for examples. -/
def catalogElement (type name timestamp containerSize contentSize : String) : XmlToken :=
  XmlToken.StartElement "resource".toList
    [("type".toList, type.toList), ("name".toList, name.toList),
     ("timestamp".toList, timestamp.toList), ("containerSize".toList, containerSize.toList),
     ("contentSize".toList, contentSize.toList)]

/-- Whether every key of a local hash is the name of the entry stored under it. -/
def keysAreNames (localResources : QHash LocalResource) : Bool :=
  localResources.entries.all (fun e => e.1 == e.2.name)

/-! ## A model file system

The install pipeline and the scanner meet only through the file system. `ArchiveReader`,
`ObfReader`, `Utilities::findFiles` and `Utilities::findDirectories` are not among the
sources, nor are the Qt file classes. The model below is one implementation of
`Collaborators`, written from the storage layout of the specification: paths are strings,
a resource lives at `<storage>/<name>`, a scan is not recursive and lists the regular files
or directories whose name matches the filter, every write succeeds, and a file shows the
manager its size, what the OBF reader finds in it, the number a text stream reads from it
and, for an archive, its items. -/

/-- The bytes of a file as the manager observes them: their count, what
`ObfReader::obtainInfo` reads from them, and the number `QTextStream` reads from them. -/
structure FileData where
  size : Nat
  obfInfo : Option ObfInfo
  number : Nat
  deriving DecidableEq, Repr

/-- A node of the model file system: a regular file (with its modification time and, when
the archive reader can list it, its items and their bytes) or a directory. -/
inductive FsNode where
  | file (data : FileData) (mtime : Nat) (archive : Option (List (ArchiveItem × FileData)))
  | directory
  deriving DecidableEq, Repr

/-- The model file system: absolute path to node. -/
abbrev FileSystem := AList (fun _ : QString => FsNode)

/-- The path of `name` inside `directory`. -/
def joinPath (directory name : QString) : QString :=
  directory ++ '/' :: name

/-- What is left of `s` after the prefix `p`, when `s` starts with it. -/
def dropPrefix : QString → QString → Option QString
  | [], s => some s
  | _ :: _, [] => none
  | a :: p, b :: s => if a = b then dropPrefix p s else none

/-- The name under which `path` is listed in `directory`: `path` is `directory/name` with a
non-empty `name` free of separators. -/
def childName (directory path : QString) : Option QString :=
  match dropPrefix (directory ++ ['/']) path with
  | none => none
  | some name => if name = [] ∨ '/' ∈ name then none else some name

/-- Modelled from the spec: the name filter of `Utilities::findFiles`, which is outside
the sources ("files matching `*.obf`", "directories matching `*.voice`"). A filter `*suffix`
matches the names that end in `suffix`; any other pattern stands for itself. -/
def wildcardMatch (pattern name : QString) : Bool :=
  match pattern with
  | '*' :: suffix => name.endsWith suffix
  | _ => pattern == name

/-- Modelled from the spec: one entry of `Utilities::findFiles` ("enumerate regular files
matching the filter, non-recursive"): a regular file directly inside the directory whose
name matches. -/
def listedFile (directory pattern : QString) (e : Sigma fun _ : QString => FsNode) :
    Option QFileInfo :=
  match e.2, childName directory e.1 with
  | FsNode.file data _ _, some name =>
    if wildcardMatch pattern name then some ⟨e.1, name, data.size⟩ else none
  | _, _ => none

/-- Modelled from the spec: one entry of `Utilities::findDirectories` ("enumerate
directories matching the filter, non-recursive"). -/
def listedDirectory (directory pattern : QString) (e : Sigma fun _ : QString => FsNode) :
    Option QFileInfo :=
  match e.2, childName directory e.1 with
  | FsNode.directory, some name =>
    if wildcardMatch pattern name then some ⟨e.1, name, 0⟩ else none
  | _, _ => none

/-- The items of the archive at a path, with their bytes. -/
def archiveContents (fs : FileSystem) (archive : QString) :
    Option (List (ArchiveItem × FileData)) :=
  match fs.lookup archive with
  | some (FsNode.file _ _ (some items)) => some items
  | _ => none

/-- Writing the items of an archive below a directory, one file per item. -/
def writeItems (directory : QString) (items : List (ArchiveItem × FileData))
    (fs : FileSystem) : FileSystem :=
  items.foldl
    (fun fs item =>
      fs.insert (joinPath directory item.1.name)
        (FsNode.file item.2 item.1.modificationTime none))
    fs

/-- The text file that holds the decimal digits of a number. -/
def numberFile (n : Nat) : FsNode :=
  FsNode.file ⟨(Nat.toDigits 10 n).length, none, n⟩ 0 none

/-- Removing a directory and everything below it. -/
def removeTree (fs : FileSystem) (directory : QString) : FileSystem :=
  ⟨fs.entries.filter
      (fun e => !(e.1 == directory || (directory ++ ['/']).isPrefixOf e.1)),
    fs.nodupKeys.sublist (List.filter_sublist _)⟩

/-- Modelled from the spec: `ArchiveReader`, `ObfReader`, `Utilities::findFiles`,
`Utilities::findDirectories` and the Qt file classes over the model file system. An item
is extracted to the file named, all items are extracted below the directory with their
sizes added up, deleting a file needs a regular file, deleting a tree needs a directory or
nothing at the path, and a number written to a file is the number read back. -/
def fsCollaborators : Collaborators FileSystem where
  getItems := fun fs archive => (archiveContents fs archive).map (fun items => items.map Prod.fst)
  extractItemToFile := fun fs archive itemName fileName =>
    match archiveContents fs archive with
    | none => (false, fs)
    | some items =>
      match items.find? (fun item => item.1.name == itemName) with
      | none => (false, fs)
      | some item =>
        (true, fs.insert fileName (FsNode.file item.2 item.1.modificationTime none))
  extractAllItemsTo := fun fs archive directory =>
    match archiveContents fs archive with
    | none => (false, 0, fs)
    | some items =>
      (true, (items.map (fun item => item.2.size)).sum,
        writeItems directory items (fs.insert directory FsNode.directory))
  absoluteFilePath := joinPath
  openReadOnly := fun fs path =>
    match fs.lookup path with
    | some (FsNode.file _ _ _) => true
    | _ => false
  fileSize := fun fs path =>
    match fs.lookup path with
    | some (FsNode.file data _ _) => data.size
    | _ => 0
  obtainInfo := fun fs path =>
    match fs.lookup path with
    | some (FsNode.file data _ _) => data.obfInfo
    | _ => none
  obfTimestamp := fun info =>
    match info with
    | some i => i.id
    | none => 0
  removeFile := fun fs path =>
    match fs.lookup path with
    | some (FsNode.file _ _ _) => (true, fs.erase path)
    | _ => (false, fs)
  removeRecursively := fun fs path =>
    match fs.lookup path with
    | some FsNode.directory => (true, removeTree fs path)
    | some (FsNode.file _ _ _) => (false, fs)
    | none => (true, fs)
  writeNumber := fun fs path n => fs.insert path (numberFile n)
  readNumber := fun fs path =>
    match fs.lookup path with
    | some (FsNode.file data _ _) => some data.number
    | _ => none
  fileExists := fun fs path =>
    match fs.lookup path with
    | some (FsNode.file _ _ _) => true
    | _ => false
  lastModified := fun fs path =>
    match fs.lookup path with
    | some (FsNode.file _ mtime _) => mtime
    | _ => 0
  findFiles := fun fs directory pattern => fs.entries.filterMap (listedFile directory pattern)
  findDirectories := fun fs directory pattern =>
    fs.entries.filterMap (listedDirectory directory pattern)

/-- Modelled from the spec: the model file system where `QFile::open` for reading fails on
every path (the I/O failure the install pipeline rolls back on). -/
def unreadableCollaborators : Collaborators FileSystem :=
  { fsCollaborators with openReadOnly := fun _ _ => false }

/-- The entry the first loop of `rescanLocalStoragePath` inserts for an opened file. -/
def mapRegionEntry {W : Type} (c : Collaborators W) (w : W) (mapRegionFile : QFileInfo) :
    LocalResource :=
  LocalObfResource c mapRegionFile.fileName ResourceType.MapRegion mapRegionFile.size
    mapRegionFile.absoluteFilePath (c.obtainInfo w mapRegionFile.absoluteFilePath)

/-- The entry the second loop of `rescanLocalStoragePath` inserts for a directory. -/
def voicePackEntry {W : Type} (c : Collaborators W) (w : W) (voicePackDirectory : QFileInfo) :
    LocalResource :=
  { name := voicePackDirectory.fileName
    type := ResourceType.VoicePack
    timestamp :=
      match c.readNumber w
          (c.absoluteFilePath voicePackDirectory.absoluteFilePath ".timestamp".toList) with
      | some t => t
      | none =>
        if c.fileExists w
            (c.absoluteFilePath voicePackDirectory.absoluteFilePath "_config.p".toList) then
          c.lastModified w
            (c.absoluteFilePath voicePackDirectory.absoluteFilePath "_config.p".toList)
        else 0
    contentSize :=
      match c.readNumber w
          (c.absoluteFilePath voicePackDirectory.absoluteFilePath ".size".toList) with
      | some s => s
      | none => 0
    localPath := voicePackDirectory.absoluteFilePath
    obfInfo := none }

/-- The entries one scan of a storage path inserts, in order: the `*.obf` files that open,
then the `*.voice` directories. -/
def scannedEntries {W : Type} (c : Collaborators W) (w : W) (storagePath : QString) :
    List LocalResource :=
  ((c.findFiles w storagePath "*.obf".toList).filter
      (fun f => c.openReadOnly w f.absoluteFilePath)).map (mapRegionEntry c w)
    ++ (c.findDirectories w storagePath "*.voice".toList).map (voicePackEntry c w)

/-- The entries a whole rescan inserts: the primary path, then the extra paths in order. -/
def allScannedEntries {W : Type} (c : Collaborators W) (w : W) (storagePaths : List QString) :
    List LocalResource :=
  storagePaths.flatMap (scannedEntries c w)

/-! ## Example worlds -/

/-- A configuration with the primary storage path `/s` and one extra path `/x`. -/
def exampleOwner : ResourcesManager :=
  ⟨"/s".toList, ["/x".toList], "/t".toList, "u".toList⟩

/-- An archive with one item, `maps/germany.obf`, of 200 bytes that the OBF reader reads. -/
def mapArchive : FsNode :=
  FsNode.file ⟨50, none, 0⟩ 7
    (some [(⟨"maps/germany.obf".toList, true, 5⟩, ⟨200, some ⟨1⟩, 0⟩)])

/-- An archive whose `.obf` item is not a map file: the OBF reader returns no information. -/
def brokenMapArchive : FsNode :=
  FsNode.file ⟨50, none, 0⟩ 7 (some [(⟨"germany.obf".toList, true, 5⟩, ⟨200, none, 0⟩)])

/-- A voice archive: `_config.p` modified at 2000 ms, and two sound files. -/
def voiceArchive : FsNode :=
  FsNode.file ⟨60, none, 0⟩ 7
    (some [(⟨"_config.p".toList, true, 2000⟩, ⟨10, none, 0⟩),
           (⟨"en.mp3".toList, true, 3⟩, ⟨20, none, 0⟩),
           (⟨"de.mp3".toList, true, 4⟩, ⟨30, none, 0⟩)])

/-- A world with the three archives in the temporary path and empty storage paths. -/
def freshFs : FileSystem :=
  (((∅ : FileSystem).insert "/t/a.zip".toList mapArchive).insert "/t/b.zip".toList
    brokenMapArchive).insert "/t/v.zip".toList voiceArchive

/-- The world `freshFs` with `germany.obf` already in the primary storage path. -/
def installedFs : FileSystem :=
  freshFs.insert "/s/germany.obf".toList (FsNode.file ⟨100, some ⟨1⟩, 0⟩ 3 none)

/-- The registry that goes with `installedFs`. -/
def installedRegistry : QHash LocalResource :=
  (∅ : QHash LocalResource).insert "germany.obf".toList
    ⟨"germany.obf".toList, ResourceType.MapRegion, 1, 100, "/s/germany.obf".toList, some ⟨1⟩⟩

/-- A world where `france.obf` is both in the primary path `/s` (1 byte) and in the extra
path `/x` (2 bytes). -/
def twoRootsFs : FileSystem :=
  ((∅ : FileSystem).insert "/s/france.obf".toList (FsNode.file ⟨1, some ⟨1⟩, 0⟩ 7 none)).insert
    "/x/france.obf".toList (FsNode.file ⟨2, some ⟨2⟩, 0⟩ 8 none)

/-! ## Runs of the manager -/

/-- The state the manager works on: the world of its collaborators and the two registries
`_localResources` and `_repositoryIndex`. -/
structure ManagerState (W : Type) where
  world : W
  localResources : QHash LocalResource
  repositoryIndex : QHash ResourceInRepository

/-- One call on the manager, or a change of the world made from outside it. -/
inductive Operation (W : Type) where
  | refreshCatalog (download : DownloadResult)
  | rescan
  | installFromFile (name filePath : QString) (resourceType : ResourceType)
  | uninstall (name : QString)
  | environment (world : W)

/-- The state after one operation; the flag a call returns is dropped. -/
def stepManager {W : Type} (c : Collaborators W) (codec : TextCodec)
    (owner : ResourcesManager) (s : ManagerState W) : Operation W → ManagerState W
  | Operation.refreshCatalog download =>
    { s with
      repositoryIndex :=
        (refreshRepositoryIndex codec owner.repositoryBaseUrl download s.repositoryIndex).2 }
  | Operation.rescan =>
    { s with localResources := (rescanLocalStoragePaths c owner s.world s.localResources).2 }
  | Operation.installFromFile name filePath resourceType =>
    { s with
      world := (installFromFile c owner s.world s.localResources name filePath resourceType).2.1
      localResources :=
        (installFromFile c owner s.world s.localResources name filePath resourceType).2.2 }
  | Operation.uninstall name =>
    { s with
      world := (uninstallResource c s.world s.localResources name).2.1
      localResources := (uninstallResource c s.world s.localResources name).2.2 }
  | Operation.environment world => { s with world := world }

/-- The state reached from empty registries by a sequence of operations. -/
def runManager {W : Type} (c : Collaborators W) (codec : TextCodec) (owner : ResourcesManager)
    (world : W) (operations : List (Operation W)) : ManagerState W :=
  operations.foldl (stepManager c codec owner) ⟨world, ∅, ∅⟩

/-- Whether a resource type is one of the two that are stored. -/
def isStoredType (resourceType : ResourceType) : Bool :=
  resourceType == ResourceType.MapRegion || resourceType == ResourceType.VoicePack

/-- A run for examples: a catalog with a `poi` element and a `map` element, an install with
type `Unknown`, the install of `germany.obf`, and a rescan. -/
def exampleOperations : List (Operation FileSystem) :=
  [Operation.refreshCatalog
      ⟨some ⟨[catalogElement "poi" "x.zip" "1" "2" "3",
              catalogElement "map" "germany.obf.zip" "1000" "50" "200"], false⟩, true⟩,
   Operation.installFromFile "x".toList "/t/a.zip".toList ResourceType.Unknown,
   Operation.installFromFile "germany.obf".toList "/t/a.zip".toList ResourceType.MapRegion,
   Operation.rescan]

/-- The update-detection scenario: the local `germany.obf` has timestamp 500. -/
def outdatedRegistry : QHash LocalResource :=
  (∅ : QHash LocalResource).insert "germany.obf".toList
    ⟨"germany.obf".toList, ResourceType.MapRegion, 500, 10, "/s/germany.obf".toList, none⟩

/-- The update-detection scenario: the catalog has `germany.obf` with timestamp 1000. -/
def newerIndex : QHash ResourceInRepository :=
  (∅ : QHash ResourceInRepository).insert "germany.obf".toList
    ⟨"germany.obf".toList, ResourceType.MapRegion, 1000, 10, [], 5⟩

/-- Modelled from the spec: the model file system where opening a file for writing fails
and the manager, which does not test it, writes nothing (the sidecar files `.timestamp` and
`.size` of a voice pack are then missing). -/
def silentWriteCollaborators : Collaborators FileSystem :=
  { fsCollaborators with writeNumber := fun fs _ _ => fs }

/-! # Properties -/

/-! ## Hashes -/

theorem lookup_foldl_insert {V : Type} (nameOf : V → QString) (entries : List V)
    (init : QHash V) (name : QString) :
    (entries.foldl (fun h e => h.insert (nameOf e) e) init).lookup name
      = (lastNamed nameOf name entries).or (init.lookup name) := by
  induction entries using List.reverseRecOn with
  | nil => simp [lastNamed]
  | append_singleton es e ih =>
    rw [List.foldl_append]
    simp only [List.foldl_cons, List.foldl_nil, lastNamed, List.reverse_append,
      List.reverse_cons, List.reverse_nil, List.nil_append, List.singleton_append,
      List.find?_cons]
    by_cases h : nameOf e = name
    · subst h
      simp [AList.lookup_insert]
    · have h' : (nameOf e == name) = false := by simpa using h
      rw [h', AList.lookup_insert_ne (Ne.symm h), ih]
      rfl

theorem lastNamed_some {V : Type} {nameOf : V → QString} {name : QString} {entries : List V}
    {e : V} (h : lastNamed nameOf name entries = some e) : e ∈ entries ∧ nameOf e = name := by
  unfold lastNamed at h
  refine ⟨List.mem_reverse.mp (List.mem_of_find?_eq_some h), ?_⟩
  simpa using List.find?_some h

theorem lastNamed_isSome {V : Type} {nameOf : V → QString} {entries : List V} {e : V}
    (h : e ∈ entries) : (lastNamed nameOf (nameOf e) entries).isSome = true := by
  unfold lastNamed
  rw [List.find?_isSome]
  exact ⟨e, List.mem_reverse.mpr h, by simp⟩

theorem lastNamed_eq_none {V : Type} {nameOf : V → QString} {name : QString}
    {entries : List V} (h : ∀ e ∈ entries, nameOf e ≠ name) :
    lastNamed nameOf name entries = none := by
  unfold lastNamed
  rw [List.find?_eq_none]
  intro e he
  simpa using h e (List.mem_reverse.mp he)

theorem lookup_saveIndex (resources : List ResourceInRepository) (name : QString) :
    (saveIndex resources).lookup name = lastNamed ResourceInRepository.name name resources := by
  unfold saveIndex
  rw [lookup_foldl_insert ResourceInRepository.name resources ∅ name]
  simp

/-! ## Catalog parsing -/

theorem parseIndexTokens_eq_filterMap (codec : TextCodec) (url : QString)
    (tokens : List XmlToken) :
    parseIndexTokens codec url tokens = tokens.filterMap (parseIndexToken codec url) := by
  unfold parseIndexTokens
  induction tokens using List.reverseRecOn with
  | nil => rfl
  | append_singleton ts t ih =>
    rw [List.foldl_append, ih, List.filterMap_append]
    cases h : parseIndexToken codec url t <;> simp [h]

theorem carriesAttribute_eq (attribs : List (QString × QString)) (name : QString) :
    carriesAttribute attribs name = (attributesValue attribs name).isSome := by
  unfold carriesAttribute attributesValue
  induction attribs with
  | nil => rfl
  | cons a as ih =>
    simp only [List.any_cons, List.find?_cons]
    cases h : (a.1 == name) <;> simp [ih]

theorem parseIndexToken_isSome (codec : TextCodec) (url tag : QString)
    (attribs : List (QString × QString)) :
    (parseIndexToken codec url (XmlToken.StartElement tag attribs)).isSome
      = isAcceptedElement codec attribs := by
  unfold isAcceptedElement parsesAsU64
  simp only [carriesAttribute_eq, parseIndexToken]
  cases attributesValue attribs "type".toList with
  | none => simp
  | some ty =>
  cases attributesValue attribs "name".toList with
  | none => simp
  | some nm =>
  cases attributesValue attribs "timestamp".toList with
  | none => simp
  | some ts =>
  cases attributesValue attribs "containerSize".toList with
  | none => simp
  | some cs =>
  cases attributesValue attribs "contentSize".toList with
  | none => simp
  | some ct =>
    by_cases hv : ty = "voice".toList
    · subst hv
      cases h₁ : codec.toULongLong ts <;> cases h₂ : codec.toULongLong cs <;>
        cases h₃ : codec.toULongLong ct <;> simp [h₁, h₂, h₃]
    · by_cases hm : ty = "map".toList
      · subst hm
        cases h₁ : codec.toULongLong ts <;> cases h₂ : codec.toULongLong cs <;>
          cases h₃ : codec.toULongLong ct <;> simp [h₁, h₂, h₃]
      · have hv' : ¬ ty = ['v', 'o', 'i', 'c', 'e'] := hv
        have hm' : ¬ ty = ['m', 'a', 'p'] := hm
        simp [hv', hm']

theorem parseIndexToken_name (codec : TextCodec) (url tag : QString)
    (attribs : List (QString × QString)) (entry : ResourceInRepository)
    (h : parseIndexToken codec url (XmlToken.StartElement tag attribs) = some entry) :
    ∃ name, attributesValue attribs "name".toList = some name
      ∧ entry.name = QString.replace name dotZip [] := by
  revert h
  simp only [parseIndexToken]
  cases attributesValue attribs "type".toList with
  | none => simp
  | some ty =>
  cases attributesValue attribs "name".toList with
  | none => simp
  | some nm =>
  cases attributesValue attribs "timestamp".toList with
  | none => simp
  | some ts =>
  cases attributesValue attribs "containerSize".toList with
  | none => simp
  | some cs =>
  cases attributesValue attribs "contentSize".toList with
  | none => simp
  | some ct =>
    intro h
    refine ⟨nm, rfl, ?_⟩
    cases h₆ : codec.toULongLong ts with
    | none => simp [h₆] at h
    | some t =>
    cases h₇ : codec.toULongLong cs with
    | none => simp [h₆, h₇] at h
    | some c =>
    cases h₈ : codec.toULongLong ct with
    | none => simp [h₆, h₇, h₈] at h
    | some z =>
      simp only [h₆, h₇, h₈] at h
      repeat' split at h
      all_goals (cases h <;> rfl)

/-! ## `QString::replace` -/

theorem replaceFrom_nil (before after : QString) (n : Nat) :
    replaceFrom before after n [] = [] := by
  cases n <;> rfl

theorem replaceFrom_of_length_le (before after : QString) :
    ∀ (s : QString) (n : Nat), s.length ≤ n → replaceFrom before after n s = []
  | [], n, _ => replaceFrom_nil before after n
  | _ :: cs, 0, h => by simp at h
  | _ :: cs, n + 1, h => by
    rw [replaceFrom]
    exact replaceFrom_of_length_le before after cs n (by simpa using h)

theorem replaceFrom_no_match (before after : QString) :
    ∀ s : QString, ¬ before <:+: s → replaceFrom before after 0 s = s
  | [], _ => rfl
  | c :: cs, h => by
    have hp : before.isPrefixOf (c :: cs) = false := by
      cases hb : before.isPrefixOf (c :: cs) with
      | false => rfl
      | true => exact absurd (List.isPrefixOf_iff_prefix.mp hb).isInfix h
    rw [replaceFrom, hp]
    simp only [Bool.false_eq_true, if_false]
    rw [replaceFrom_no_match before after cs (fun hc => h (List.infix_cons hc))]

theorem replaceFrom_trailing (before : QString) (hne : before ≠ []) :
    ∀ base : QString, ¬ before <:+: base ++ before.dropLast →
      replaceFrom before [] 0 (base ++ before) = base
  | [], _ => by
    obtain ⟨b, bs, rfl⟩ := List.exists_cons_of_ne_nil hne
    have hp : (b :: bs).isPrefixOf (b :: bs) = true :=
      List.isPrefixOf_iff_prefix.mpr (List.prefix_refl _)
    rw [List.nil_append, replaceFrom, hp]
    simp only [if_true, List.nil_append, List.length_cons, Nat.add_sub_cancel]
    exact replaceFrom_of_length_le _ _ bs bs.length (Nat.le_refl _)
  | c :: cs, h => by
    have hp : before.isPrefixOf (c :: (cs ++ before)) = false := by
      cases hb : before.isPrefixOf (c :: (cs ++ before)) with
      | false => rfl
      | true =>
        exfalso
        apply h
        have h₁ : before <+: (c :: cs ++ before.dropLast) ++ [before.getLast hne] := by
          rw [List.append_assoc, List.dropLast_append_getLast hne]
          exact List.isPrefixOf_iff_prefix.mp hb
        have h₂ : (c :: cs ++ before.dropLast)
            <+: (c :: cs ++ before.dropLast) ++ [before.getLast hne] :=
          List.prefix_append _ _
        have hlen : before.length ≤ (c :: cs ++ before.dropLast).length := by
          have := List.length_dropLast before
          simp only [List.cons_append, List.length_cons, List.length_append,
            List.length_dropLast]
          have hpos : 0 < before.length := List.length_pos.mpr hne
          omega
        exact (List.prefix_of_prefix_length_le h₁ h₂ hlen).isInfix
    rw [List.cons_append, replaceFrom, hp]
    simp only [Bool.false_eq_true, if_false]
    rw [replaceFrom_trailing before hne cs (fun hc => h (by
      rw [List.cons_append]
      exact List.infix_cons hc))]

/-! ## C1: the catalog refresh -/

/-- C1: `refreshRepositoryIndex` either returns true, and then the download gave a body the
reader went through without error and the index afterwards is built from the entries
parsed from that body alone (under each name the entry parsed last), or returns false and
the index is the one before the call; a missing body, an unsuccessful request and an XML
error after any number of parsed elements all give false and the prior index. -/
theorem refreshRepositoryIndex_replaces_or_keeps (codec : TextCodec) (url : QString)
    (download : DownloadResult) (prior : QHash ResourceInRepository) :
    (((refreshRepositoryIndex codec url download prior).1 = true
        ∧ ∃ xml, download.data = some xml ∧ download.isSuccessful = true
            ∧ xml.hasError = false
            ∧ (refreshRepositoryIndex codec url download prior).2
                = saveIndex (parseIndexTokens codec url xml.tokens)
            ∧ ∀ name, ((refreshRepositoryIndex codec url download prior).2).lookup name
                = lastNamed ResourceInRepository.name name
                    (parseIndexTokens codec url xml.tokens))
      ∨ ((refreshRepositoryIndex codec url download prior).1 = false
        ∧ (refreshRepositoryIndex codec url download prior).2 = prior))
    ∧ (download.data = none ∨ download.isSuccessful = false →
        refreshRepositoryIndex codec url download prior = (false, prior))
    ∧ (∀ xml, download.data = some xml → xml.hasError = true →
        refreshRepositoryIndex codec url download prior = (false, prior)) := by
  obtain ⟨data, ok⟩ := download
  cases data with
  | none => simp [refreshRepositoryIndex]
  | some xml =>
    obtain ⟨tokens, err⟩ := xml
    cases ok <;> cases err <;> simp [refreshRepositoryIndex, lookup_saveIndex]

/-- At a body with one accepted element followed by an XML error, and at a failed request,
the refresh returns false and keeps a non-empty prior index. -/
theorem refreshRepositoryIndex_replaces_or_keeps_witness :
    refreshRepositoryIndex exampleCodec "u".toList
        ⟨some ⟨[catalogElement "map" "g.obf.zip" "1000" "50" "200"], true⟩, true⟩
        (saveIndex [⟨"old".toList, ResourceType.VoicePack, 1, 2, [], 3⟩])
      = (false, saveIndex [⟨"old".toList, ResourceType.VoicePack, 1, 2, [], 3⟩])
    ∧ refreshRepositoryIndex exampleCodec "u".toList ⟨none, true⟩
        (saveIndex [⟨"old".toList, ResourceType.VoicePack, 1, 2, [], 3⟩])
      = (false, saveIndex [⟨"old".toList, ResourceType.VoicePack, 1, 2, [], 3⟩]) :=
  ⟨(refreshRepositoryIndex_replaces_or_keeps exampleCodec "u".toList
      ⟨some ⟨[catalogElement "map" "g.obf.zip" "1000" "50" "200"], true⟩, true⟩
      (saveIndex [⟨"old".toList, ResourceType.VoicePack, 1, 2, [], 3⟩])).2.2 _ rfl rfl,
   (refreshRepositoryIndex_replaces_or_keeps exampleCodec "u".toList ⟨none, true⟩
      (saveIndex [⟨"old".toList, ResourceType.VoicePack, 1, 2, [], 3⟩])).2.1 (Or.inl rfl)⟩

/-- The tokens of a document are taken one by one. On a document read without error after
a successful request the refresh succeeds whatever the elements are; the index is saved from the entries of the tokens taken one by
one (`filterMap`), so an element that is skipped changes nothing for the others; a start
element yields an entry exactly when it is accepted (all five attributes, type `map` or
`voice`, three numbers that parse); every accepted element of the document has its key in
the index and every entry of the index is the entry of an accepted element of the
document; removing a skipped element from the document leaves the saved index the same. -/
theorem refreshRepositoryIndex_stores_accepted_elements (codec : TextCodec) (url : QString)
    (tokens : List XmlToken) (prior : QHash ResourceInRepository) :
    (refreshRepositoryIndex codec url ⟨some ⟨tokens, false⟩, true⟩ prior).1 = true
    ∧ (refreshRepositoryIndex codec url ⟨some ⟨tokens, false⟩, true⟩ prior).2
        = saveIndex (tokens.filterMap (parseIndexToken codec url))
    ∧ (∀ tag attribs,
        (parseIndexToken codec url (XmlToken.StartElement tag attribs)).isSome
          = isAcceptedElement codec attribs)
    ∧ (∀ tag attribs, XmlToken.StartElement tag attribs ∈ tokens →
        isAcceptedElement codec attribs = true →
        ∃ entry, parseIndexToken codec url (XmlToken.StartElement tag attribs) = some entry
          ∧ (((refreshRepositoryIndex codec url ⟨some ⟨tokens, false⟩, true⟩ prior).2).lookup
              entry.name).isSome = true)
    ∧ (∀ name entry,
        ((refreshRepositoryIndex codec url ⟨some ⟨tokens, false⟩, true⟩ prior).2).lookup name
          = some entry →
        ∃ tag attribs, XmlToken.StartElement tag attribs ∈ tokens
          ∧ isAcceptedElement codec attribs = true
          ∧ parseIndexToken codec url (XmlToken.StartElement tag attribs) = some entry)
    ∧ (∀ before after tag attribs,
        tokens = before ++ [XmlToken.StartElement tag attribs] ++ after →
        isAcceptedElement codec attribs = false →
        (refreshRepositoryIndex codec url ⟨some ⟨tokens, false⟩, true⟩ prior).2
          = (refreshRepositoryIndex codec url ⟨some ⟨before ++ after, false⟩, true⟩ prior).2) := by
  have hrun : ∀ ts : List XmlToken,
      refreshRepositoryIndex codec url ⟨some ⟨ts, false⟩, true⟩ prior
        = (true, saveIndex (ts.filterMap (parseIndexToken codec url))) := by
    intro ts
    simp [refreshRepositoryIndex, parseIndexTokens_eq_filterMap]
  rw [hrun]
  refine ⟨rfl, rfl, parseIndexToken_isSome codec url, ?_, ?_, ?_⟩
  · intro tag attribs hmem hacc
    rw [← parseIndexToken_isSome codec url tag attribs, Option.isSome_iff_exists] at hacc
    obtain ⟨entry, hentry⟩ := hacc
    refine ⟨entry, hentry, ?_⟩
    show ((saveIndex (tokens.filterMap (parseIndexToken codec url))).lookup entry.name).isSome
      = true
    rw [lookup_saveIndex]
    exact lastNamed_isSome (List.mem_filterMap.mpr ⟨_, hmem, hentry⟩)
  · intro name entry hlook
    have hlook' : (saveIndex (tokens.filterMap (parseIndexToken codec url))).lookup name
        = some entry := hlook
    rw [lookup_saveIndex] at hlook'
    obtain ⟨token, hmem, hentry⟩ := List.mem_filterMap.mp (lastNamed_some hlook').1
    cases token with
    | Other => simp [parseIndexToken] at hentry
    | StartElement tag attribs =>
      refine ⟨tag, attribs, hmem, ?_, hentry⟩
      rw [← parseIndexToken_isSome codec url tag attribs, hentry]
      rfl
  · intro before after tag attribs htokens hskip
    rw [hrun]
    have hnone : parseIndexToken codec url (XmlToken.StartElement tag attribs) = none := by
      rw [← parseIndexToken_isSome codec url tag attribs] at hskip
      cases h : parseIndexToken codec url (XmlToken.StartElement tag attribs) with
      | none => rfl
      | some e => rw [h] at hskip; exact absurd hskip (by simp)
    show saveIndex _ = saveIndex _
    rw [htokens]
    simp [List.filterMap_append, hnone]

/-- The scenario of the specification: one valid `map` element and one element without
`timestamp`; the valid element has its key in the index, and the index has that key only. -/
theorem refreshRepositoryIndex_stores_accepted_elements_witness :
    (∃ entry,
      parseIndexToken exampleCodec "u".toList
          (catalogElement "map" "germany.obf.zip" "1000" "50" "200") = some entry
      ∧ (((refreshRepositoryIndex exampleCodec "u".toList
            ⟨some ⟨[catalogElement "map" "germany.obf.zip" "1000" "50" "200",
                    XmlToken.StartElement "resource".toList
                      [("type".toList, "map".toList), ("name".toList, "x.obf.zip".toList),
                       ("containerSize".toList, "5".toList),
                       ("contentSize".toList, "9".toList)]], false⟩, true⟩ ∅).2).lookup
          entry.name).isSome = true)
    ∧ ((refreshRepositoryIndex exampleCodec "u".toList
            ⟨some ⟨[catalogElement "map" "germany.obf.zip" "1000" "50" "200",
                    XmlToken.StartElement "resource".toList
                      [("type".toList, "map".toList), ("name".toList, "x.obf.zip".toList),
                       ("containerSize".toList, "5".toList),
                       ("contentSize".toList, "9".toList)]], false⟩, true⟩ ∅).2).keys
        = ["germany.obf".toList] :=
  ⟨(refreshRepositoryIndex_stores_accepted_elements exampleCodec "u".toList
      [catalogElement "map" "germany.obf.zip" "1000" "50" "200",
       XmlToken.StartElement "resource".toList
         [("type".toList, "map".toList), ("name".toList, "x.obf.zip".toList),
          ("containerSize".toList, "5".toList), ("contentSize".toList, "9".toList)]]
      ∅).2.2.2.1 "resource".toList _ (by simp [catalogElement]) (by decide),
   by decide⟩

/-! ## C3: the key of a catalog entry -/

/-- C3, as stated, fails: the accepted element named `a.zip.obf` does not end in `.zip`, so
the stated key is the name itself, yet the entry is stored under `a.obf`, the inner `.zip`
removed. -/
theorem catalog_key_drops_inner_zip :
    (parseIndexToken exampleCodec "u".toList
        (catalogElement "map" "a.zip.obf" "1" "2" "3")).map ResourceInRepository.name
      = some "a.obf".toList
    ∧ stripTrailingZip "a.zip.obf".toList = "a.zip.obf".toList
    ∧ ((refreshRepositoryIndex exampleCodec "u".toList
          ⟨some ⟨[catalogElement "map" "a.zip.obf" "1" "2" "3"], false⟩, true⟩ ∅).2).keys
        = ["a.obf".toList]
    ∧ "a.obf".toList ≠ stripTrailingZip "a.zip.obf".toList := by
  decide

/-- C3, amended: the stored name of an accepted element, which is its key in every index
saved from a list holding the entry, is the `name` attribute with every occurrence of
`.zip` removed in one left-to-right pass; a name without `.zip` is kept as it is, and a
name whose only occurrence of `.zip` is its end loses exactly that suffix. -/
theorem catalog_key_removes_every_zip (codec : TextCodec) (url tag : QString)
    (attribs : List (QString × QString)) (entry : ResourceInRepository) (name : QString)
    (hentry : parseIndexToken codec url (XmlToken.StartElement tag attribs) = some entry)
    (hname : attributesValue attribs "name".toList = some name) :
    entry.name = QString.replace name dotZip []
    ∧ (∀ resources, entry ∈ resources →
        ((saveIndex resources).lookup (QString.replace name dotZip [])).isSome = true)
    ∧ (∀ resources key stored, (saveIndex resources).lookup key = some stored →
        stored.name = key)
    ∧ (¬ dotZip <:+: name → entry.name = name)
    ∧ (∀ base, name = base ++ dotZip → ¬ dotZip <:+: base ++ ".zi".toList →
        entry.name = base) := by
  obtain ⟨name', hname', hkey⟩ := parseIndexToken_name codec url tag attribs entry hentry
  have hsame : name' = name := by
    rw [hname] at hname'
    exact (Option.some.inj hname').symm
  subst hsame
  refine ⟨hkey, ?_, ?_, ?_, ?_⟩
  · intro resources hmem
    rw [lookup_saveIndex, ← hkey]
    exact lastNamed_isSome hmem
  · intro resources key stored hstored
    rw [lookup_saveIndex] at hstored
    exact (lastNamed_some hstored).2
  · intro hno
    rw [hkey]
    exact replaceFrom_no_match dotZip [] name' hno
  · intro base hbase honly
    rw [hkey, hbase]
    exact replaceFrom_trailing dotZip (by decide) base honly

/-- The element named `a.zip.obf.zip` is stored under `a.obf`. -/
theorem catalog_key_removes_every_zip_witness :
    (⟨"a.obf".toList, ResourceType.MapRegion, 1, 3, "u/download.php?file=a.zip.obf.zip".toList,
        2⟩ : ResourceInRepository).name
      = QString.replace "a.zip.obf.zip".toList dotZip []
    ∧ QString.replace "a.zip.obf.zip".toList dotZip [] = "a.obf".toList :=
  ⟨(catalog_key_removes_every_zip exampleCodec "u".toList "resource".toList
      [("type".toList, "map".toList), ("name".toList, "a.zip.obf.zip".toList),
       ("timestamp".toList, "1".toList), ("containerSize".toList, "2".toList),
       ("contentSize".toList, "3".toList)]
      ⟨"a.obf".toList, ResourceType.MapRegion, 1, 3,
        "u/download.php?file=a.zip.obf.zip".toList, 2⟩
      "a.zip.obf.zip".toList (by decide) (by decide)).1,
   by decide⟩

/-! ## Available updates over any hash -/

theorem getAvailableUpdatesFromRepository_eq_filterMap (localResources : QHash LocalResource)
    (repositoryIndex : QHash ResourceInRepository) :
    getAvailableUpdatesFromRepository localResources repositoryIndex
      = (QHash.values localResources).filterMap (fun localResource =>
          match getResourceInRepository repositoryIndex localResource.name with
          | none => none
          | some resourceInRepository =>
            if localResource.timestamp < resourceInRepository.timestamp then
              some localResource.name
            else none) := by
  unfold getAvailableUpdatesFromRepository
  induction QHash.values localResources using List.reverseRecOn with
  | nil => rfl
  | append_singleton ls l ih =>
    rw [List.foldl_append, ih, List.filterMap_append]
    simp only [List.foldl_cons, List.foldl_nil, List.filterMap_cons, List.filterMap_nil]
    cases getResourceInRepository repositoryIndex l.name with
    | none => simp
    | some r =>
      by_cases hlt : l.timestamp < r.timestamp <;> simp [hlt]

theorem mem_values_iff {V : Type} (h : QHash V) (v : V) :
    v ∈ QHash.values h ↔ ∃ key, h.lookup key = some v := by
  unfold QHash.values
  constructor
  · intro hv
    obtain ⟨⟨key, v'⟩, hmem, rfl⟩ := List.mem_map.mp hv
    exact ⟨key, AList.mem_lookup_iff.mpr hmem⟩
  · rintro ⟨key, hkey⟩
    exact List.mem_map.mpr ⟨⟨key, v⟩, AList.mem_lookup_iff.mp hkey, rfl⟩

theorem mem_getAvailableUpdatesFromRepository (localResources : QHash LocalResource)
    (repositoryIndex : QHash ResourceInRepository) (name : QString) :
    name ∈ getAvailableUpdatesFromRepository localResources repositoryIndex
      ↔ ∃ key localResource resourceInRepository,
          localResources.lookup key = some localResource
          ∧ localResource.name = name
          ∧ repositoryIndex.lookup name = some resourceInRepository
          ∧ localResource.timestamp < resourceInRepository.timestamp := by
  rw [getAvailableUpdatesFromRepository_eq_filterMap, List.mem_filterMap]
  constructor
  · rintro ⟨l, hl, hsome⟩
    obtain ⟨key, hkey⟩ := (mem_values_iff _ _).mp hl
    unfold getResourceInRepository at hsome
    cases hr : repositoryIndex.lookup l.name with
    | none => simp [hr] at hsome
    | some r =>
      simp only [hr] at hsome
      split at hsome
      · rename_i hlt
        have hn : l.name = name := Option.some.inj hsome
        exact ⟨key, l, r, hkey, hn, hn ▸ hr, hlt⟩
      · exact absurd hsome (by simp)
  · rintro ⟨key, l, r, hkey, hn, hr, hlt⟩
    refine ⟨l, (mem_values_iff _ _).mpr ⟨key, hkey⟩, ?_⟩
    unfold getResourceInRepository
    rw [hn, hr]
    simp [hlt, hn]

theorem keysAreNames_sound (localResources : QHash LocalResource)
    (h : keysAreNames localResources = true) (key : QString) (localResource : LocalResource)
    (hkey : localResources.lookup key = some localResource) : localResource.name = key := by
  unfold keysAreNames at h
  rw [List.all_eq_true] at h
  have := h ⟨key, localResource⟩ (AList.mem_lookup_iff.mp hkey)
  exact (by simpa using this : key = localResource.name).symm

/-- The list holds the names of the entries, not their keys: in a hash whose key `k` is
not the name `x` of its entry, a hash that no call of the manager builds, the list is `[x]`
although `x` is not a key. -/
theorem availableUpdates_name_not_a_key :
    getAvailableUpdatesFromRepository
        ((∅ : QHash LocalResource).insert "k".toList
          ⟨"x".toList, ResourceType.MapRegion, 1, 10, "/s/x".toList, none⟩)
        ((∅ : QHash ResourceInRepository).insert "x".toList
          ⟨"x".toList, ResourceType.MapRegion, 2, 10, [], 5⟩)
      = ["x".toList]
    ∧ ((∅ : QHash LocalResource).insert "k".toList
          ⟨"x".toList, ResourceType.MapRegion, 1, 10, "/s/x".toList, none⟩).lookup "x".toList
      = none := by
  decide

/-- For a local hash whose keys are the names of their entries and every repository index,
each name in the list returned by `getAvailableUpdatesFromRepository` is a key of both and
the local timestamp is strictly below the remote one. -/
theorem availableUpdates_sound (localResources : QHash LocalResource)
    (repositoryIndex : QHash ResourceInRepository)
    (hkeys : ∀ key localResource, localResources.lookup key = some localResource →
      localResource.name = key)
    (name : QString)
    (hname : name ∈ getAvailableUpdatesFromRepository localResources repositoryIndex) :
    ∃ localResource resourceInRepository,
      getLocalResource localResources name = some localResource
      ∧ getResourceInRepository repositoryIndex name = some resourceInRepository
      ∧ localResource.timestamp < resourceInRepository.timestamp := by
  obtain ⟨key, l, r, hkey, hn, hr, hlt⟩ :=
    (mem_getAvailableUpdatesFromRepository _ _ _).mp hname
  have hk : key = name := by rw [← hkeys key l hkey, hn]
  subst hk
  exact ⟨l, r, hkey, hr, hlt⟩

/-- The update-detection scenario: local `germany.obf` of timestamp 500, remote 1000. -/
theorem availableUpdates_sound_witness :
    ∃ localResource resourceInRepository,
      getLocalResource
          ((∅ : QHash LocalResource).insert "germany.obf".toList
            ⟨"germany.obf".toList, ResourceType.MapRegion, 500, 10, "/s/germany.obf".toList,
              none⟩)
          "germany.obf".toList = some localResource
      ∧ getResourceInRepository
          ((∅ : QHash ResourceInRepository).insert "germany.obf".toList
            ⟨"germany.obf".toList, ResourceType.MapRegion, 1000, 10, [], 5⟩)
          "germany.obf".toList = some resourceInRepository
      ∧ localResource.timestamp < resourceInRepository.timestamp :=
  availableUpdates_sound _ _ (keysAreNames_sound _ (by decide)) "germany.obf".toList
    (by decide)

/-! ## C5: installing an existing name -/

/-- C5: when the local registry already holds `name`, `installFromFile` returns false for
every path and type and returns the world and the registry it was given, whatever the
collaborators are: no archive is opened and nothing is written. -/
theorem installFromFile_existing_name {W : Type} (c : Collaborators W)
    (owner : ResourcesManager) (w : W) (localResources : QHash LocalResource)
    (name filePath : QString) (resourceType : ResourceType)
    (h : isResourceInstalled localResources name = true) :
    installFromFile c owner w localResources name filePath resourceType
      = (false, w, localResources) := by
  unfold isResourceInstalled at h
  obtain ⟨r, hr⟩ := Option.isSome_iff_exists.mp h
  simp [installFromFile, hr]

/-- The name `germany.obf` is installed, and installing it again from a good archive
returns false with the world and the registry untouched. -/
theorem installFromFile_existing_name_witness :
    installFromFile fsCollaborators exampleOwner installedFs installedRegistry
        "germany.obf".toList "/t/a.zip".toList ResourceType.MapRegion
      = (false, installedFs, installedRegistry) :=
  installFromFile_existing_name fsCollaborators exampleOwner installedFs installedRegistry
    "germany.obf".toList "/t/a.zip".toList ResourceType.MapRegion (by decide)

/-! ## C6: update from file -/

theorem updateFromFile_of_installed {W : Type} (c : Collaborators W)
    (owner : ResourcesManager) (w : W) (localResources : QHash LocalResource)
    (name filePath : QString) (h : isResourceInstalled localResources name = true) :
    updateFromFile c owner w localResources name filePath = some (false, w, localResources) := by
  unfold isResourceInstalled at h
  obtain ⟨r, hr⟩ := Option.isSome_iff_exists.mp h
  simp [updateFromFile, hr]

/-- C6, evaluated at an installed name: `germany.obf` is installed, its file can be
deleted (uninstall succeeds) and the archive installs under that name once it is gone, yet
`updateFromFile` returns false and leaves the world and the registry as they were. -/
theorem updateFromFile_fails_on_installed_name :
    isResourceInstalled installedRegistry "germany.obf".toList = true
    ∧ updateFromFile fsCollaborators exampleOwner installedFs installedRegistry
        "germany.obf".toList "/t/a.zip".toList
      = some (false, installedFs, installedRegistry)
    ∧ (uninstallResource fsCollaborators installedFs installedRegistry
        "germany.obf".toList).1 = true
    ∧ (installFromFile fsCollaborators exampleOwner
        (uninstallResource fsCollaborators installedFs installedRegistry
          "germany.obf".toList).2.1
        (uninstallResource fsCollaborators installedFs installedRegistry
          "germany.obf".toList).2.2
        "germany.obf".toList "/t/a.zip".toList ResourceType.MapRegion).1 = true :=
  ⟨by decide, updateFromFile_of_installed _ _ _ _ _ _ (by decide), by decide, by decide⟩

/-! ## C8: uninstall -/

/-- C8: `uninstallResource` returns false and keeps the registry when the name is absent
and when the delete of the resource (the file of a map region, the directory tree of a
voice pack) fails; when the name is present and the delete succeeds it returns true and
the registry is the previous one with the entry of `name` erased: the name is no longer a
key and every other key keeps its entry. An entry of type `Unknown` is never deleted. -/
theorem uninstallResource_outcomes {W : Type} (c : Collaborators W) (w : W)
    (localResources : QHash LocalResource) (name : QString) :
    (localResources.lookup name = none →
      uninstallResource c w localResources name = (false, w, localResources))
    ∧ (∀ resource, localResources.lookup name = some resource →
        (resource.type = ResourceType.MapRegion ∧ (c.removeFile w resource.localPath).1 = false
          ∨ resource.type = ResourceType.VoicePack
            ∧ (c.removeRecursively w resource.localPath).1 = false) →
        (uninstallResource c w localResources name).1 = false
          ∧ (uninstallResource c w localResources name).2.2 = localResources)
    ∧ (∀ resource, localResources.lookup name = some resource →
        (resource.type = ResourceType.MapRegion ∧ (c.removeFile w resource.localPath).1 = true
          ∨ resource.type = ResourceType.VoicePack
            ∧ (c.removeRecursively w resource.localPath).1 = true) →
        (uninstallResource c w localResources name).1 = true
          ∧ (uninstallResource c w localResources name).2.2 = localResources.erase name
          ∧ getLocalResource (uninstallResource c w localResources name).2.2 name = none
          ∧ ∀ other, other ≠ name →
              getLocalResource (uninstallResource c w localResources name).2.2 other
                = getLocalResource localResources other)
    ∧ (∀ resource, localResources.lookup name = some resource →
        resource.type = ResourceType.Unknown →
        uninstallResource c w localResources name = (false, w, localResources)) := by
  refine ⟨?_, ?_, ?_, ?_⟩
  · intro h
    simp [uninstallResource, h]
  · rintro resource h (⟨ht, hd⟩ | ⟨ht, hd⟩)
    · cases hrm : c.removeFile w resource.localPath with
      | mk ok w₁ =>
        rw [hrm] at hd
        simp only at hd
        subst hd
        simp [uninstallResource, h, ht, uninstallMapRegion, hrm]
    · cases hrm : c.removeRecursively w resource.localPath with
      | mk ok w₁ =>
        rw [hrm] at hd
        simp only at hd
        subst hd
        simp [uninstallResource, h, ht, uninstallVoicePack, hrm]
  · rintro resource h (⟨ht, hd⟩ | ⟨ht, hd⟩)
    · cases hrm : c.removeFile w resource.localPath with
      | mk ok w₁ =>
        rw [hrm] at hd
        simp only at hd
        subst hd
        have hrun : uninstallResource c w localResources name
            = (true, w₁, localResources.erase name) := by
          simp [uninstallResource, h, ht, uninstallMapRegion, hrm]
        rw [hrun]
        refine ⟨rfl, rfl, AList.lookup_erase name localResources, ?_⟩
        intro other hne
        exact AList.lookup_erase_ne hne
    · cases hrm : c.removeRecursively w resource.localPath with
      | mk ok w₁ =>
        rw [hrm] at hd
        simp only at hd
        subst hd
        have hrun : uninstallResource c w localResources name
            = (true, w₁, localResources.erase name) := by
          simp [uninstallResource, h, ht, uninstallVoicePack, hrm]
        rw [hrun]
        refine ⟨rfl, rfl, AList.lookup_erase name localResources, ?_⟩
        intro other hne
        exact AList.lookup_erase_ne hne
  · intro resource h ht
    simp [uninstallResource, h, ht]

/-- Uninstalling the installed `germany.obf` deletes its file, returns true and leaves no
entry under the name. -/
theorem uninstallResource_outcomes_witness :
    (uninstallResource fsCollaborators installedFs installedRegistry "germany.obf".toList).1
      = true
    ∧ (uninstallResource fsCollaborators installedFs installedRegistry
        "germany.obf".toList).2.2 = installedRegistry.erase "germany.obf".toList
    ∧ getLocalResource
        (uninstallResource fsCollaborators installedFs installedRegistry
          "germany.obf".toList).2.2 "germany.obf".toList = none :=
  let h := (uninstallResource_outcomes fsCollaborators installedFs installedRegistry
    "germany.obf".toList).2.2.1
    ⟨"germany.obf".toList, ResourceType.MapRegion, 1, 100, "/s/germany.obf".toList, some ⟨1⟩⟩
    (by decide) (Or.inl ⟨by decide, by decide⟩)
  ⟨h.1, h.2.1, h.2.2.1⟩


/-! ## The scanner as a sequence of inserts -/

theorem foldl_rescanMapRegionFile {W : Type} (c : Collaborators W) (w : W)
    (files : List QFileInfo) (outResult : QHash LocalResource) :
    files.foldl (rescanMapRegionFile c w) outResult
      = ((files.filter (fun f => c.openReadOnly w f.absoluteFilePath)).map
            (mapRegionEntry c w)).foldl
          (fun h e => h.insert e.name e) outResult := by
  induction files generalizing outResult with
  | nil => rfl
  | cons f fs ih =>
    rw [List.foldl_cons, ih, List.filter_cons]
    cases hopen : c.openReadOnly w f.absoluteFilePath with
    | false => simp [rescanMapRegionFile, hopen]
    | true =>
      simp only [rescanMapRegionFile, hopen, Bool.not_true, Bool.false_eq_true, if_false,
        if_true, List.map_cons, List.foldl_cons]
      rfl

theorem foldl_rescanVoicePackDirectory {W : Type} (c : Collaborators W) (w : W)
    (directories : List QFileInfo) (outResult : QHash LocalResource) :
    directories.foldl (rescanVoicePackDirectory c w) outResult
      = (directories.map (voicePackEntry c w)).foldl
          (fun h e => h.insert e.name e) outResult := by
  induction directories generalizing outResult with
  | nil => rfl
  | cons d ds ih =>
    rw [List.foldl_cons, ih, List.map_cons, List.foldl_cons]
    rfl

theorem rescanLocalStoragePath_eq {W : Type} (c : Collaborators W) (w : W)
    (storagePath : QString) (outResult : QHash LocalResource) :
    rescanLocalStoragePath c w storagePath outResult
      = (true, (scannedEntries c w storagePath).foldl (fun h e => h.insert e.name e)
          outResult) := by
  unfold rescanLocalStoragePath scannedEntries
  simp only [foldl_rescanMapRegionFile, foldl_rescanVoicePackDirectory, List.foldl_append]

theorem rescanExtraStoragePaths_eq {W : Type} (c : Collaborators W) (w : W)
    (storagePaths : List QString) (outResult : QHash LocalResource) :
    rescanExtraStoragePaths c w storagePaths outResult
      = (true, (allScannedEntries c w storagePaths).foldl (fun h e => h.insert e.name e)
          outResult) := by
  induction storagePaths generalizing outResult with
  | nil => rfl
  | cons p ps ih =>
    rw [rescanExtraStoragePaths, rescanLocalStoragePath_eq]
    simp only [ih, allScannedEntries, List.flatMap_cons, List.foldl_append]

theorem rescanLocalStoragePaths_eq {W : Type} (c : Collaborators W)
    (owner : ResourcesManager) (w : W) (localResources : QHash LocalResource) :
    rescanLocalStoragePaths c owner w localResources
      = (true, (allScannedEntries c w
            (owner.localStoragePath :: owner.extraStoragePaths)).foldl
          (fun h e => h.insert e.name e) ∅) := by
  unfold rescanLocalStoragePaths
  rw [rescanLocalStoragePath_eq]
  simp only [rescanExtraStoragePaths_eq, allScannedEntries, List.flatMap_cons,
    List.foldl_append]

theorem lookup_rescanLocalStoragePaths {W : Type} (c : Collaborators W)
    (owner : ResourcesManager) (w : W) (localResources : QHash LocalResource)
    (name : QString) :
    (rescanLocalStoragePaths c owner w localResources).2.lookup name
      = lastNamed LocalResource.name name
          (allScannedEntries c w (owner.localStoragePath :: owner.extraStoragePaths)) := by
  rw [rescanLocalStoragePaths_eq]
  show AList.lookup name (List.foldl _ _ _) = _
  rw [lookup_foldl_insert LocalResource.name]
  simp

theorem lastNamed_append {V : Type} (nameOf : V → QString) (name : QString)
    (l₁ l₂ : List V) :
    lastNamed nameOf name (l₁ ++ l₂)
      = (lastNamed nameOf name l₂).or (lastNamed nameOf name l₁) := by
  unfold lastNamed
  rw [List.reverse_append, List.find?_append]

theorem allScannedEntries_append {W : Type} (c : Collaborators W) (w : W)
    (l₁ l₂ : List QString) :
    allScannedEntries c w (l₁ ++ l₂) = allScannedEntries c w l₁ ++ allScannedEntries c w l₂ := by
  simp [allScannedEntries]

theorem mem_scannedEntries_localPath {W : Type} (c : Collaborators W) (w : W)
    (storagePath : QString) (e : LocalResource) (h : e ∈ scannedEntries c w storagePath) :
    (∃ f ∈ c.findFiles w storagePath "*.obf".toList,
        e.localPath = f.absoluteFilePath ∧ e.name = f.fileName
          ∧ e.type = ResourceType.MapRegion ∧ e.contentSize = f.size)
      ∨ (∃ d ∈ c.findDirectories w storagePath "*.voice".toList,
        e.localPath = d.absoluteFilePath ∧ e.name = d.fileName
          ∧ e.type = ResourceType.VoicePack) := by
  unfold scannedEntries at h
  rcases List.mem_append.mp h with h | h
  · obtain ⟨f, hf, rfl⟩ := List.mem_map.mp h
    exact Or.inl ⟨f, (List.mem_filter.mp hf).1, rfl, rfl, rfl, rfl⟩
  · obtain ⟨d, hd, rfl⟩ := List.mem_map.mp h
    exact Or.inr ⟨d, hd, rfl, rfl, rfl⟩

theorem countP_key_eq_one {V : Type} (h : QHash V) (name : QString) (v : V)
    (hl : h.lookup name = some v) :
    h.entries.countP (fun e => decide (e.1 = name)) = 1 := by
  have hmem : name ∈ h.keys := AList.mem_keys.mp (AList.lookup_isSome.mp (by rw [hl]; rfl))
  have h₁ : @List.count _ instBEqOfDecidableEq name h.keys = 1 :=
    List.count_eq_one_of_mem h.keys_nodup hmem
  rw [← h₁]
  unfold List.count AList.keys List.keys
  rw [List.countP_map]
  rfl

/-! ## C7: one name in two storage roots -/

/-- C7, as stated, fails: `france.obf` lies in the primary path `/s` (1 byte) and in the
extra path `/x` (2 bytes); after the rescan the one entry of `france.obf` is the file of
`/x`, the root scanned last, not the file of `/s`. -/
theorem rescan_keeps_later_root_entry :
    (scannedEntries fsCollaborators twoRootsFs "/s".toList).map
        (fun e => (e.name, e.localPath, e.contentSize))
      = [("france.obf".toList, "/s/france.obf".toList, 1)]
    ∧ (rescanLocalStoragePaths fsCollaborators exampleOwner twoRootsFs ∅).1 = true
    ∧ ((rescanLocalStoragePaths fsCollaborators exampleOwner twoRootsFs ∅).2.lookup
        "france.obf".toList).map (fun e => (e.localPath, e.contentSize))
      = some ("/x/france.obf".toList, 2) := by
  decide

/-- C7, amended: when a name is found in a storage root (the primary path or an extra
path) and in no root scanned after it, whatever the roots scanned before it hold, the
rescan succeeds and the registry has exactly one entry for the name: the entry scanned
from that root, the last one in which the name is found; its path is the path the scan of
that root listed. -/
theorem rescan_keeps_last_root_entry {W : Type} (c : Collaborators W)
    (owner : ResourcesManager) (w : W) (prior : QHash LocalResource) (name : QString)
    (before after : List QString) (root : QString) (entry : LocalResource)
    (hroots : owner.localStoragePath :: owner.extraStoragePaths = before ++ root :: after)
    (hfound : lastNamed LocalResource.name name (scannedEntries c w root) = some entry)
    (hlast : ∀ later ∈ after, ∀ e ∈ scannedEntries c w later, e.name ≠ name) :
    (rescanLocalStoragePaths c owner w prior).1 = true
    ∧ getLocalResource (rescanLocalStoragePaths c owner w prior).2 name = some entry
    ∧ (rescanLocalStoragePaths c owner w prior).2.entries.countP
        (fun e => decide (e.1 = name)) = 1
    ∧ ((∃ f ∈ c.findFiles w root "*.obf".toList, entry.localPath = f.absoluteFilePath)
        ∨ (∃ d ∈ c.findDirectories w root "*.voice".toList,
            entry.localPath = d.absoluteFilePath)) := by
  have hlook : (rescanLocalStoragePaths c owner w prior).2.lookup name = some entry := by
    rw [lookup_rescanLocalStoragePaths, hroots, allScannedEntries_append, lastNamed_append]
    have hsplit : allScannedEntries c w (root :: after)
        = scannedEntries c w root ++ allScannedEntries c w after := by
      simp [allScannedEntries]
    have hafter : lastNamed LocalResource.name name (allScannedEntries c w after) = none := by
      apply lastNamed_eq_none
      intro e he
      obtain ⟨later, hlater, hmem⟩ := List.mem_flatMap.mp he
      exact hlast later hlater e hmem
    rw [hsplit, lastNamed_append, hafter, hfound]
    rfl
  refine ⟨by rw [rescanLocalStoragePaths_eq], hlook, ?_, ?_⟩
  · exact countP_key_eq_one _ name entry hlook
  · rcases mem_scannedEntries_localPath c w root entry (lastNamed_some hfound).1 with h | h
    · obtain ⟨f, hf, hp, _⟩ := h
      exact Or.inl ⟨f, hf, hp⟩
    · obtain ⟨d, hd, hp, _⟩ := h
      exact Or.inr ⟨d, hd, hp⟩

/-- With `france.obf` in `/s` and in `/x`, the entry kept is the one of `/x`. -/
theorem rescan_keeps_last_root_entry_witness :
    getLocalResource (rescanLocalStoragePaths fsCollaborators exampleOwner twoRootsFs ∅).2
        "france.obf".toList
      = some ⟨"france.obf".toList, ResourceType.MapRegion, 2, 2, "/x/france.obf".toList,
          some ⟨2⟩⟩
    ∧ (rescanLocalStoragePaths fsCollaborators exampleOwner twoRootsFs ∅).2.entries.countP
        (fun e => decide (e.1 = "france.obf".toList)) = 1 :=
  let h := rescan_keeps_last_root_entry fsCollaborators exampleOwner twoRootsFs ∅
    "france.obf".toList ["/s".toList] [] "/x".toList
    ⟨"france.obf".toList, ResourceType.MapRegion, 2, 2, "/x/france.obf".toList, some ⟨2⟩⟩
    (by decide) (by decide) (by simp)
  ⟨h.2.1, h.2.2.1⟩

/-! ## C10: a map file that cannot be read -/

/-- C10, as stated, fails: the `.obf` item of the archive `/t/b.zip` is extracted to
`/s/germany.obf`, the OBF reader gets no information from that file (the probe fails), and
`installFromFile` still returns true, leaves the file in place and inserts the entry. -/
theorem install_keeps_file_without_obf_info :
    (installFromFile fsCollaborators exampleOwner freshFs ∅ "germany.obf".toList
        "/t/b.zip".toList ResourceType.MapRegion).1 = true
    ∧ fsCollaborators.obtainInfo
        (installFromFile fsCollaborators exampleOwner freshFs ∅ "germany.obf".toList
          "/t/b.zip".toList ResourceType.MapRegion).2.1 "/s/germany.obf".toList = none
    ∧ ((installFromFile fsCollaborators exampleOwner freshFs ∅ "germany.obf".toList
          "/t/b.zip".toList ResourceType.MapRegion).2.1.lookup "/s/germany.obf".toList).isSome
        = true
    ∧ (getLocalResource
        (installFromFile fsCollaborators exampleOwner freshFs ∅ "germany.obf".toList
          "/t/b.zip".toList ResourceType.MapRegion).2.2 "germany.obf".toList).isSome
        = true := by
  decide

/-- C10, amended: once the `.obf` item of the archive is extracted to the local file of a
name not yet in the registry, the outcome depends on opening that file alone. When the
file cannot be opened for reading, `installFromFile` returns false, the world is the one
after `QFile::remove` on the extracted file, and the registry is unchanged, so it has no
entry for the name. When the file opens, `installFromFile` returns true and inserts the
entry with whatever `obtainInfo` returned, which is not examined. -/
theorem installFromFile_map_region_after_extraction {W : Type} (c : Collaborators W)
    (owner : ResourcesManager) (w w₁ : W) (localResources : QHash LocalResource)
    (name filePath : QString) (archiveItems : List ArchiveItem) (obfArchiveItem : ArchiveItem)
    (habsent : localResources.lookup name = none)
    (hitems : c.getItems w filePath = some archiveItems)
    (hitem : archiveItems.find?
        (fun archiveItem => archiveItem.isValid && archiveItem.name.endsWith ".obf".toList)
      = some obfArchiveItem)
    (hextract : c.extractItemToFile w filePath obfArchiveItem.name
        (c.absoluteFilePath owner.localStoragePath name) = (true, w₁)) :
    (c.openReadOnly w₁ (c.absoluteFilePath owner.localStoragePath name) = false →
      installFromFile c owner w localResources name filePath ResourceType.MapRegion
        = (false, (c.removeFile w₁ (c.absoluteFilePath owner.localStoragePath name)).2,
            localResources)
      ∧ getLocalResource
          (installFromFile c owner w localResources name filePath
            ResourceType.MapRegion).2.2 name = none)
    ∧ (c.openReadOnly w₁ (c.absoluteFilePath owner.localStoragePath name) = true →
      installFromFile c owner w localResources name filePath ResourceType.MapRegion
        = (true, w₁,
            localResources.insert name
              (LocalObfResource c name ResourceType.MapRegion
                (c.fileSize w₁ (c.absoluteFilePath owner.localStoragePath name))
                (c.absoluteFilePath owner.localStoragePath name)
                (c.obtainInfo w₁ (c.absoluteFilePath owner.localStoragePath name))))) := by
  constructor
  · intro hopen
    have hrun : installFromFile c owner w localResources name filePath ResourceType.MapRegion
        = (false, (c.removeFile w₁ (c.absoluteFilePath owner.localStoragePath name)).2,
            localResources) := by
      simp only [installFromFile, habsent, installMapRegionFromFile, hitems, hitem, hextract,
        hopen, Bool.not_false, if_true]
    rw [hrun]
    exact ⟨rfl, habsent⟩
  · intro hopen
    simp only [installFromFile, habsent, installMapRegionFromFile, hitems, hitem, hextract,
      hopen, Bool.not_true, Bool.false_eq_true, if_false]

/-- Where extracted files cannot be opened, installing `germany.obf` from a good archive
returns false, the extracted file is gone afterwards and the registry has no entry. -/
theorem installFromFile_map_region_after_extraction_witness :
    (installFromFile unreadableCollaborators exampleOwner freshFs ∅ "germany.obf".toList
        "/t/a.zip".toList ResourceType.MapRegion).1 = false
    ∧ (installFromFile unreadableCollaborators exampleOwner freshFs ∅ "germany.obf".toList
        "/t/a.zip".toList ResourceType.MapRegion).2.1.lookup "/s/germany.obf".toList = none
    ∧ getLocalResource
        (installFromFile unreadableCollaborators exampleOwner freshFs ∅ "germany.obf".toList
          "/t/a.zip".toList ResourceType.MapRegion).2.2 "germany.obf".toList = none :=
  let h := (installFromFile_map_region_after_extraction unreadableCollaborators exampleOwner
    freshFs (freshFs.insert "/s/germany.obf".toList (FsNode.file ⟨200, some ⟨1⟩, 0⟩ 5 none))
    ∅ "germany.obf".toList "/t/a.zip".toList
    [⟨"maps/germany.obf".toList, true, 5⟩] ⟨"maps/germany.obf".toList, true, 5⟩
    (by decide) (by decide) (by decide) rfl).1 (by decide)
  ⟨by rw [h.1], by rw [h.1]; decide, h.2⟩

/-! ## The model file system: listings -/

theorem dropPrefix_append (p s : QString) : dropPrefix p (p ++ s) = some s := by
  induction p with
  | nil => simp [dropPrefix]
  | cons a p ih => simp [dropPrefix, ih]

theorem dropPrefix_eq_some {p s r : QString} (h : dropPrefix p s = some r) : s = p ++ r := by
  induction p generalizing s with
  | nil =>
    simp only [dropPrefix, Option.some.injEq] at h
    simp [h]
  | cons a p ih =>
    cases s with
    | nil => simp [dropPrefix] at h
    | cons b s =>
      simp only [dropPrefix] at h
      split at h
      · rename_i hab
        rw [hab, ih h]
        rfl
      · exact absurd h (by simp)

theorem childName_joinPath (directory name : QString) (hne : name ≠ [])
    (hsep : '/' ∉ name) : childName directory (joinPath directory name) = some name := by
  have hsplit : joinPath directory name = (directory ++ ['/']) ++ name := by
    simp [joinPath]
  unfold childName
  rw [hsplit, dropPrefix_append]
  simp [hne, hsep]

theorem childName_eq_some {directory path name : QString}
    (h : childName directory path = some name) :
    path = joinPath directory name ∧ name ≠ [] ∧ '/' ∉ name := by
  unfold childName at h
  cases hd : dropPrefix (directory ++ ['/']) path with
  | none => simp [hd] at h
  | some rest =>
    simp only [hd] at h
    split at h
    · exact absurd h (by simp)
    · rename_i hok
      have hrest : rest = name := Option.some.inj h
      subst hrest
      refine ⟨?_, fun hnil => hok (Or.inl hnil), fun hmem => hok (Or.inr hmem)⟩
      rw [dropPrefix_eq_some hd]
      simp [joinPath]

theorem mem_findFiles {fs : FileSystem} {directory pattern : QString} {f : QFileInfo}
    (h : f ∈ fsCollaborators.findFiles fs directory pattern) :
    ∃ data mtime archive,
      fs.lookup f.absoluteFilePath = some (FsNode.file data mtime archive)
      ∧ f.absoluteFilePath = joinPath directory f.fileName
      ∧ f.size = data.size := by
  change f ∈ fs.entries.filterMap (listedFile directory pattern) at h
  obtain ⟨⟨path, node⟩, hmem, hl⟩ := List.mem_filterMap.mp h
  unfold listedFile at hl
  cases node with
  | directory => simp at hl
  | file data mtime archive =>
    cases hc : childName directory path with
    | none => simp [hc] at hl
    | some name =>
      simp only [hc] at hl
      split at hl
      · have hf : f = ⟨path, name, data.size⟩ := (Option.some.inj hl).symm
        subst hf
        exact ⟨data, mtime, archive, AList.mem_lookup_iff.mpr hmem, (childName_eq_some hc).1,
          rfl⟩
      · exact absurd hl (by simp)

theorem mem_findDirectories {fs : FileSystem} {directory pattern : QString} {d : QFileInfo}
    (h : d ∈ fsCollaborators.findDirectories fs directory pattern) :
    fs.lookup d.absoluteFilePath = some FsNode.directory
      ∧ d.absoluteFilePath = joinPath directory d.fileName
      ∧ d.size = 0 := by
  change d ∈ fs.entries.filterMap (listedDirectory directory pattern) at h
  obtain ⟨⟨path, node⟩, hmem, hl⟩ := List.mem_filterMap.mp h
  unfold listedDirectory at hl
  cases node with
  | file data mtime archive => simp at hl
  | directory =>
    cases hc : childName directory path with
    | none => simp [hc] at hl
    | some name =>
      simp only [hc] at hl
      split at hl
      · have hd : d = ⟨path, name, 0⟩ := (Option.some.inj hl).symm
        subst hd
        exact ⟨AList.mem_lookup_iff.mpr hmem, (childName_eq_some hc).1, rfl⟩
      · exact absurd hl (by simp)

theorem findFiles_of_lookup {fs : FileSystem} {directory pattern name : QString}
    {data : FileData} {mtime : Nat} {archive : Option (List (ArchiveItem × FileData))}
    (hl : fs.lookup (joinPath directory name) = some (FsNode.file data mtime archive))
    (hne : name ≠ []) (hsep : '/' ∉ name) (hm : wildcardMatch pattern name = true) :
    (⟨joinPath directory name, name, data.size⟩ : QFileInfo)
      ∈ fsCollaborators.findFiles fs directory pattern := by
  change _ ∈ fs.entries.filterMap (listedFile directory pattern)
  refine List.mem_filterMap.mpr ⟨⟨joinPath directory name, FsNode.file data mtime archive⟩,
    AList.mem_lookup_iff.mp hl, ?_⟩
  simp only [listedFile, childName_joinPath directory name hne hsep, hm, if_true]

theorem findDirectories_of_lookup {fs : FileSystem} {directory pattern name : QString}
    (hl : fs.lookup (joinPath directory name) = some FsNode.directory)
    (hne : name ≠ []) (hsep : '/' ∉ name) (hm : wildcardMatch pattern name = true) :
    (⟨joinPath directory name, name, 0⟩ : QFileInfo)
      ∈ fsCollaborators.findDirectories fs directory pattern := by
  change _ ∈ fs.entries.filterMap (listedDirectory directory pattern)
  refine List.mem_filterMap.mpr ⟨⟨joinPath directory name, FsNode.directory⟩,
    AList.mem_lookup_iff.mp hl, ?_⟩
  simp only [listedDirectory, childName_joinPath directory name hne hsep, hm, if_true]

theorem scannedEntries_cases {fs : FileSystem} {root : QString} {e : LocalResource}
    (he : e ∈ scannedEntries fsCollaborators fs root) :
    (∃ data mtime archive,
        fs.lookup (joinPath root e.name) = some (FsNode.file data mtime archive)
        ∧ e = mapRegionEntry fsCollaborators fs ⟨joinPath root e.name, e.name, data.size⟩)
      ∨ (fs.lookup (joinPath root e.name) = some FsNode.directory
        ∧ e = voicePackEntry fsCollaborators fs ⟨joinPath root e.name, e.name, 0⟩) := by
  unfold scannedEntries at he
  rcases List.mem_append.mp he with h | h
  · obtain ⟨f, hf, rfl⟩ := List.mem_map.mp h
    obtain ⟨data, mtime, archive, hl, hp, hs⟩ := mem_findFiles (List.mem_filter.mp hf).1
    obtain ⟨path, fileName, size⟩ := f
    simp only at hl hp hs
    subst hp hs
    exact Or.inl ⟨data, mtime, archive, hl, rfl⟩
  · obtain ⟨d, hd, rfl⟩ := List.mem_map.mp h
    obtain ⟨hl, hp, hs⟩ := mem_findDirectories hd
    obtain ⟨path, fileName, size⟩ := d
    simp only at hl hp hs
    subst hp hs
    exact Or.inr ⟨hl, rfl⟩

theorem scannedEntries_name_ne {fs : FileSystem} {root name : QString}
    (h : fs.lookup (joinPath root name) = none) :
    ∀ e ∈ scannedEntries fsCollaborators fs root, e.name ≠ name := by
  intro e he hname
  subst hname
  rcases scannedEntries_cases he with ⟨_, _, _, hl, _⟩ | ⟨hl, _⟩ <;>
    · rw [h] at hl
      exact absurd hl (by simp)

theorem lastNamed_eq_some_of_unique {V : Type} {nameOf : V → QString} {name : QString}
    {entries : List V} {e : V} (hmem : e ∈ entries) (hname : nameOf e = name)
    (huniq : ∀ e' ∈ entries, nameOf e' = name → e' = e) :
    lastNamed nameOf name entries = some e := by
  have hsome := @lastNamed_isSome V nameOf entries e hmem
  rw [hname] at hsome
  obtain ⟨e', he'⟩ := Option.isSome_iff_exists.mp hsome
  rw [he']
  obtain ⟨hm, hn⟩ := lastNamed_some he'
  rw [huniq e' hm hn]

theorem lastNamed_scannedEntries_file {fs : FileSystem} {root name : QString}
    {data : FileData} {mtime : Nat} {archive : Option (List (ArchiveItem × FileData))}
    (hl : fs.lookup (joinPath root name) = some (FsNode.file data mtime archive))
    (hne : name ≠ []) (hsep : '/' ∉ name) (hm : name.endsWith ".obf".toList = true) :
    lastNamed LocalResource.name name (scannedEntries fsCollaborators fs root)
      = some (mapRegionEntry fsCollaborators fs ⟨joinPath root name, name, data.size⟩) := by
  apply lastNamed_eq_some_of_unique
  · unfold scannedEntries
    apply List.mem_append_left
    refine List.mem_map.mpr ⟨⟨joinPath root name, name, data.size⟩, ?_, rfl⟩
    refine List.mem_filter.mpr ⟨findFiles_of_lookup hl hne hsep hm, ?_⟩
    show (match fs.lookup (joinPath root name) with
      | some (FsNode.file _ _ _) => true
      | _ => false) = true
    rw [hl]
  · rfl
  · intro e' he' hname'
    subst hname'
    rcases scannedEntries_cases he' with ⟨data', _, _, hl', heq⟩ | ⟨hl', _⟩
    · rw [hl] at hl'
      cases hl'
      exact heq
    · rw [hl] at hl'
      exact absurd hl' (by simp)

theorem lastNamed_scannedEntries_directory {fs : FileSystem} {root name : QString}
    (hl : fs.lookup (joinPath root name) = some FsNode.directory)
    (hne : name ≠ []) (hsep : '/' ∉ name) (hm : name.endsWith ".voice".toList = true) :
    lastNamed LocalResource.name name (scannedEntries fsCollaborators fs root)
      = some (voicePackEntry fsCollaborators fs ⟨joinPath root name, name, 0⟩) := by
  apply lastNamed_eq_some_of_unique
  · unfold scannedEntries
    apply List.mem_append_right
    exact List.mem_map.mpr ⟨⟨joinPath root name, name, 0⟩,
      findDirectories_of_lookup hl hne hsep hm, rfl⟩
  · rfl
  · intro e' he' hname'
    subst hname'
    rcases scannedEntries_cases he' with ⟨_, _, _, hl', _⟩ | ⟨_, heq⟩
    · rw [hl] at hl'
      exact absurd hl' (by simp)
    · exact heq

theorem extractItemToFile_fs_success {fs fs₁ : FileSystem} {archive itemName fileName : QString}
    (h : fsCollaborators.extractItemToFile fs archive itemName fileName = (true, fs₁)) :
    ∃ data mtime, fs₁ = fs.insert fileName (FsNode.file data mtime none) := by
  change (match archiveContents fs archive with
    | none => (false, fs)
    | some items =>
      match items.find? (fun item => item.1.name == itemName) with
      | none => (false, fs)
      | some item =>
        (true, fs.insert fileName (FsNode.file item.2 item.1.modificationTime none)))
    = (true, fs₁) at h
  cases hc : archiveContents fs archive with
  | none => simp [hc] at h
  | some items =>
    simp only [hc] at h
    cases hf : items.find? (fun item => item.1.name == itemName) with
    | none => simp [hf] at h
    | some item =>
      simp only [hf, Prod.mk.injEq, true_and] at h
      exact ⟨_, _, h.symm⟩

theorem installMapRegionFromFile_fs_success {owner : ResourcesManager} {fs fs' : FileSystem}
    {localResources localResources' : QHash LocalResource} {name filePath : QString}
    (h : installMapRegionFromFile fsCollaborators owner fs localResources name filePath
      = (true, fs', localResources')) :
    ∃ data mtime,
      fs' = fs.insert (joinPath owner.localStoragePath name) (FsNode.file data mtime none)
      ∧ localResources' = localResources.insert name
          (LocalObfResource fsCollaborators name ResourceType.MapRegion data.size
            (joinPath owner.localStoragePath name) data.obfInfo) := by
  unfold installMapRegionFromFile at h
  cases hitems : fsCollaborators.getItems fs filePath with
  | none => simp [hitems] at h
  | some items =>
    simp only [hitems] at h
    cases hfind : items.find?
        (fun archiveItem => archiveItem.isValid && archiveItem.name.endsWith ".obf".toList) with
    | none => simp only [hfind] at h; exact absurd h (by simp)
    | some item =>
      simp only [hfind] at h
      cases hext : fsCollaborators.extractItemToFile fs filePath item.name
          (fsCollaborators.absoluteFilePath owner.localStoragePath name) with
      | mk ok fs₁ =>
        simp only [hext] at h
        cases ok with
        | false => simp at h
        | true =>
          obtain ⟨data, mtime, hfs₁⟩ := extractItemToFile_fs_success hext
          have hpath : fsCollaborators.absoluteFilePath owner.localStoragePath name
              = joinPath owner.localStoragePath name := rfl
          rw [hpath] at h hfs₁
          have hlook : fs₁.lookup (joinPath owner.localStoragePath name)
              = some (FsNode.file data mtime none) := by
            rw [hfs₁, AList.lookup_insert]
          have hopen : fsCollaborators.openReadOnly fs₁ (joinPath owner.localStoragePath name)
              = true := by
            show (match fs₁.lookup (joinPath owner.localStoragePath name) with
              | some (FsNode.file _ _ _) => true
              | _ => false) = true
            rw [hlook]
          have hsize : fsCollaborators.fileSize fs₁ (joinPath owner.localStoragePath name)
              = data.size := by
            show (match fs₁.lookup (joinPath owner.localStoragePath name) with
              | some (FsNode.file data _ _) => data.size
              | _ => 0) = data.size
            rw [hlook]
          have hinfo : fsCollaborators.obtainInfo fs₁ (joinPath owner.localStoragePath name)
              = data.obfInfo := by
            show (match fs₁.lookup (joinPath owner.localStoragePath name) with
              | some (FsNode.file data _ _) => data.obfInfo
              | _ => none) = data.obfInfo
            rw [hlook]
          simp only [hopen, hsize, hinfo, Bool.not_true, Bool.false_eq_true, if_false,
            Prod.mk.injEq, true_and] at h
          exact ⟨data, mtime, by rw [← h.1, hfs₁], h.2.symm⟩

theorem joinPath_ne_self (directory name : QString) : joinPath directory name ≠ directory := by
  intro h
  have hlen := congrArg List.length h
  simp [joinPath] at hlen

theorem lookup_writeItems_of_ne (directory path : QString)
    (items : List (ArchiveItem × FileData)) (fs : FileSystem)
    (h : ∀ item ∈ items, joinPath directory item.1.name ≠ path) :
    (writeItems directory items fs).lookup path = fs.lookup path := by
  unfold writeItems
  induction items generalizing fs with
  | nil => rfl
  | cons item rest ih =>
    rw [List.foldl_cons, ih _ (fun i hi => h i (List.mem_cons_of_mem _ hi))]
    exact AList.lookup_insert_ne (Ne.symm (h item (List.mem_cons_self _ _)))

theorem installVoicePackFromFile_fs_success {owner : ResourcesManager} {fs fs' : FileSystem}
    {localResources localResources' : QHash LocalResource} {name filePath : QString}
    (h : installVoicePackFromFile fsCollaborators owner fs localResources name filePath
      = (true, fs', localResources')) :
    ∃ items timestamp contentSize,
      fs' = ((writeItems (joinPath owner.localStoragePath name) items
                (fs.insert (joinPath owner.localStoragePath name) FsNode.directory)).insert
              (joinPath (joinPath owner.localStoragePath name) ".timestamp".toList)
              (numberFile timestamp)).insert
            (joinPath (joinPath owner.localStoragePath name) ".size".toList)
            (numberFile contentSize)
      ∧ localResources' = localResources.insert name
          { name := name
            type := ResourceType.VoicePack
            timestamp := timestamp
            contentSize := contentSize
            localPath := joinPath owner.localStoragePath name
            obfInfo := none } := by
  unfold installVoicePackFromFile at h
  cases hitems : fsCollaborators.getItems fs filePath with
  | none => simp [hitems] at h
  | some archiveItems =>
    simp only [hitems] at h
    cases hfind : archiveItems.find?
        (fun archiveItem => archiveItem.isValid && archiveItem.name == "_config.p".toList) with
    | none => simp only [hfind] at h; exact absurd h (by simp)
    | some item =>
      simp only [hfind] at h
      have hpath : ∀ d n, fsCollaborators.absoluteFilePath d n = joinPath d n := fun _ _ => rfl
      have hwrite : ∀ (w : FileSystem) p n,
          fsCollaborators.writeNumber w p n = w.insert p (numberFile n) := fun _ _ _ => rfl
      simp only [hpath, hwrite] at h
      have hext : fsCollaborators.extractAllItemsTo fs filePath
            (joinPath owner.localStoragePath name)
          = match archiveContents fs filePath with
            | none => (false, 0, fs)
            | some items =>
              (true, (items.map (fun item => item.2.size)).sum,
                writeItems (joinPath owner.localStoragePath name) items
                  (fs.insert (joinPath owner.localStoragePath name) FsNode.directory)) := rfl
      rw [hext] at h
      cases hc : archiveContents fs filePath with
      | none => simp [hc] at h
      | some items =>
        simp only [hc, Prod.mk.injEq, true_and] at h
        exact ⟨items, _, _, h.1.symm, h.2.symm⟩

theorem not_endsWith_nil (suffix : QString) (hne : suffix ≠ []) :
    QString.endsWith [] suffix = false := by
  cases h : QString.endsWith [] suffix with
  | false => rfl
  | true =>
    unfold QString.endsWith at h
    have hs := List.isSuffixOf_iff_suffix.mp h
    exact absurd (List.suffix_nil.mp hs) hne

/-! ## C9: install, then rescan -/

/-- Two further ways in which a rescan does not give back what install recorded. A name
with a path separator is installed below a subdirectory of the storage path, where the
scan, which is not recursive, does not look. And when the extra path `/x` holds its own
`germany.obf` (7 bytes) that the registry does not know of, installing `germany.obf`
(200 bytes) into `/s` succeeds and the rescan keeps the 7 bytes of `/x`. -/
theorem install_then_rescan_other_losses :
    (installFromFile fsCollaborators exampleOwner freshFs ∅ "eu/germany.obf".toList
        "/t/a.zip".toList ResourceType.MapRegion).1 = true
    ∧ getLocalResource
        (rescanLocalStoragePaths fsCollaborators exampleOwner
          (installFromFile fsCollaborators exampleOwner freshFs ∅ "eu/germany.obf".toList
            "/t/a.zip".toList ResourceType.MapRegion).2.1
          (installFromFile fsCollaborators exampleOwner freshFs ∅ "eu/germany.obf".toList
            "/t/a.zip".toList ResourceType.MapRegion).2.2).2 "eu/germany.obf".toList = none
    ∧ (installFromFile fsCollaborators exampleOwner
        (freshFs.insert "/x/germany.obf".toList (FsNode.file ⟨7, some ⟨2⟩, 0⟩ 3 none)) ∅
        "germany.obf".toList "/t/a.zip".toList ResourceType.MapRegion).1 = true
    ∧ (getLocalResource
        (installFromFile fsCollaborators exampleOwner
          (freshFs.insert "/x/germany.obf".toList (FsNode.file ⟨7, some ⟨2⟩, 0⟩ 3 none)) ∅
          "germany.obf".toList "/t/a.zip".toList ResourceType.MapRegion).2.2
        "germany.obf".toList).map (fun e => e.contentSize) = some 200
    ∧ (getLocalResource
        (rescanLocalStoragePaths fsCollaborators exampleOwner
          (installFromFile fsCollaborators exampleOwner
            (freshFs.insert "/x/germany.obf".toList (FsNode.file ⟨7, some ⟨2⟩, 0⟩ 3 none)) ∅
            "germany.obf".toList "/t/a.zip".toList ResourceType.MapRegion).2.1
          (installFromFile fsCollaborators exampleOwner
            (freshFs.insert "/x/germany.obf".toList (FsNode.file ⟨7, some ⟨2⟩, 0⟩ 3 none)) ∅
            "germany.obf".toList "/t/a.zip".toList ResourceType.MapRegion).2.2).2
        "germany.obf".toList).map (fun e => e.contentSize) = some 7 := by
  decide

/-- On the model file system what the scan lists follows from the name alone: when
`installFromFile` succeeds for a name
without a path separator that the scanner's filter matches (`*.obf` for a map region,
`*.voice` for a voice pack) and no extra storage path holds an item of that name, the
rescan performed on the resulting world succeeds and its entry for the name has the name,
the type and the content size of the entry that install recorded; for a voice pack the
size is the one install wrote to `.size`. -/
theorem install_then_rescan_roundtrip (owner : ResourcesManager) (fs fs' : FileSystem)
    (localResources localResources' : QHash LocalResource) (name filePath : QString)
    (resourceType : ResourceType)
    (hinstall : installFromFile fsCollaborators owner fs localResources name filePath
      resourceType = (true, fs', localResources'))
    (hsep : '/' ∉ name)
    (hobf : resourceType = ResourceType.MapRegion → name.endsWith ".obf".toList = true)
    (hvoice : resourceType = ResourceType.VoicePack → name.endsWith ".voice".toList = true)
    (hextra : ∀ extra ∈ owner.extraStoragePaths, fs'.lookup (joinPath extra name) = none) :
    ∃ installed rescanned,
      getLocalResource localResources' name = some installed
      ∧ installed.name = name
      ∧ installed.type = resourceType
      ∧ (rescanLocalStoragePaths fsCollaborators owner fs' localResources').1 = true
      ∧ getLocalResource
          (rescanLocalStoragePaths fsCollaborators owner fs' localResources').2 name
        = some rescanned
      ∧ rescanned.name = installed.name
      ∧ rescanned.type = installed.type
      ∧ rescanned.contentSize = installed.contentSize := by
  have hrescan : ∀ entry,
      lastNamed LocalResource.name name
          (scannedEntries fsCollaborators fs' owner.localStoragePath) = some entry →
      (rescanLocalStoragePaths fsCollaborators owner fs' localResources').1 = true
      ∧ getLocalResource
          (rescanLocalStoragePaths fsCollaborators owner fs' localResources').2 name
        = some entry := by
    intro entry hentry
    refine ⟨by rw [rescanLocalStoragePaths_eq], ?_⟩
    unfold getLocalResource
    rw [lookup_rescanLocalStoragePaths]
    have hsplit : allScannedEntries fsCollaborators fs'
          (owner.localStoragePath :: owner.extraStoragePaths)
        = scannedEntries fsCollaborators fs' owner.localStoragePath
          ++ allScannedEntries fsCollaborators fs' owner.extraStoragePaths := by
      simp [allScannedEntries]
    have hnone : lastNamed LocalResource.name name
        (allScannedEntries fsCollaborators fs' owner.extraStoragePaths) = none := by
      apply lastNamed_eq_none
      intro e he
      obtain ⟨extra, hextraMem, hmem⟩ := List.mem_flatMap.mp he
      exact scannedEntries_name_ne (hextra extra hextraMem) e hmem
    rw [hsplit, lastNamed_append, hnone, hentry]
    rfl
  unfold installFromFile at hinstall
  cases hlook : localResources.lookup name with
  | some existing => simp [hlook] at hinstall
  | none =>
    simp only [hlook] at hinstall
    cases resourceType with
    | Unknown => simp at hinstall
    | MapRegion =>
      simp only at hinstall
      have hm := hobf rfl
      have hne : name ≠ [] := by
        intro hnil
        rw [hnil, not_endsWith_nil _ (by decide)] at hm
        exact absurd hm (by simp)
      obtain ⟨data, mtime, hfs, hreg⟩ := installMapRegionFromFile_fs_success hinstall
      have hfile : fs'.lookup (joinPath owner.localStoragePath name)
          = some (FsNode.file data mtime none) := by
        rw [hfs, AList.lookup_insert]
      obtain ⟨hok, hentry⟩ := hrescan _ (lastNamed_scannedEntries_file hfile hne hsep hm)
      refine ⟨LocalObfResource fsCollaborators name ResourceType.MapRegion data.size
          (joinPath owner.localStoragePath name) data.obfInfo,
        _, ?_, rfl, rfl, hok, hentry, rfl, rfl, rfl⟩
      unfold getLocalResource
      rw [hreg, AList.lookup_insert]
    | VoicePack =>
      simp only at hinstall
      have hm := hvoice rfl
      have hne : name ≠ [] := by
        intro hnil
        rw [hnil, not_endsWith_nil _ (by decide)] at hm
        exact absurd hm (by simp)
      obtain ⟨items, timestamp, contentSize, hfs, hreg⟩ :=
        installVoicePackFromFile_fs_success hinstall
      have hdir : fs'.lookup (joinPath owner.localStoragePath name)
          = some FsNode.directory := by
        rw [hfs, AList.lookup_insert_ne (Ne.symm (joinPath_ne_self _ _)),
          AList.lookup_insert_ne (Ne.symm (joinPath_ne_self _ _)),
          lookup_writeItems_of_ne _ _ _ _ (fun _ _ => joinPath_ne_self _ _),
          AList.lookup_insert]
      have hsize : fsCollaborators.readNumber fs'
            (fsCollaborators.absoluteFilePath (joinPath owner.localStoragePath name)
              ".size".toList)
          = some contentSize := by
        show (match fs'.lookup (joinPath (joinPath owner.localStoragePath name) ".size".toList)
          with
          | some (FsNode.file data _ _) => some data.number
          | _ => none) = some contentSize
        rw [hfs, AList.lookup_insert]
        rfl
      obtain ⟨hok, hentry⟩ := hrescan _ (lastNamed_scannedEntries_directory hdir hne hsep hm)
      refine ⟨{ name := name
                type := ResourceType.VoicePack
                timestamp := timestamp
                contentSize := contentSize
                localPath := joinPath owner.localStoragePath name
                obfInfo := none },
        _, ?_, rfl, rfl, hok, hentry, rfl, rfl, ?_⟩
      · unfold getLocalResource
        rw [hreg, AList.lookup_insert]
      · show (match fsCollaborators.readNumber fs'
            (fsCollaborators.absoluteFilePath (joinPath owner.localStoragePath name)
              ".size".toList) with
          | some s => s
          | none => 0) = contentSize
        rw [hsize]

/-- The voice pack scenario: `english.voice` installed from an archive with `_config.p`
and two sound files (60 bytes in all) comes back from the rescan with the same name, type
and size. -/
theorem install_then_rescan_roundtrip_witness :
    ∃ installed rescanned,
      getLocalResource
          (installFromFile fsCollaborators exampleOwner freshFs ∅ "english.voice".toList
            "/t/v.zip".toList ResourceType.VoicePack).2.2 "english.voice".toList
        = some installed
      ∧ installed.name = "english.voice".toList
      ∧ installed.type = ResourceType.VoicePack
      ∧ (rescanLocalStoragePaths fsCollaborators exampleOwner
          (installFromFile fsCollaborators exampleOwner freshFs ∅ "english.voice".toList
            "/t/v.zip".toList ResourceType.VoicePack).2.1
          (installFromFile fsCollaborators exampleOwner freshFs ∅ "english.voice".toList
            "/t/v.zip".toList ResourceType.VoicePack).2.2).1 = true
      ∧ getLocalResource
          (rescanLocalStoragePaths fsCollaborators exampleOwner
            (installFromFile fsCollaborators exampleOwner freshFs ∅ "english.voice".toList
              "/t/v.zip".toList ResourceType.VoicePack).2.1
            (installFromFile fsCollaborators exampleOwner freshFs ∅ "english.voice".toList
              "/t/v.zip".toList ResourceType.VoicePack).2.2).2 "english.voice".toList
        = some rescanned
      ∧ rescanned.name = installed.name
      ∧ rescanned.type = installed.type
      ∧ rescanned.contentSize = installed.contentSize :=
  install_then_rescan_roundtrip exampleOwner freshFs _ ∅ _ "english.voice".toList
    "/t/v.zip".toList ResourceType.VoicePack rfl (by decide) (by decide) (by decide)
    (by decide)

/-! ## C11: a successful install is visible in the registry -/

theorem installMapRegionFromFile_cases {W : Type} (c : Collaborators W)
    (owner : ResourcesManager) (w : W) (localResources : QHash LocalResource)
    (name filePath : QString) :
    ((installMapRegionFromFile c owner w localResources name filePath).1 = false
        ∧ (installMapRegionFromFile c owner w localResources name filePath).2.2
            = localResources)
      ∨ ((installMapRegionFromFile c owner w localResources name filePath).1 = true
        ∧ ∃ entry : LocalResource, entry.name = name ∧ entry.type = ResourceType.MapRegion
            ∧ (installMapRegionFromFile c owner w localResources name filePath).2.2
                = localResources.insert name entry) := by
  unfold installMapRegionFromFile
  cases c.getItems w filePath with
  | none => exact Or.inl ⟨rfl, rfl⟩
  | some archiveItems =>
    simp only
    cases archiveItems.find?
        (fun archiveItem => archiveItem.isValid && archiveItem.name.endsWith ".obf".toList) with
    | none => exact Or.inl ⟨rfl, rfl⟩
    | some obfArchiveItem =>
      simp only
      cases c.extractItemToFile w filePath obfArchiveItem.name
          (c.absoluteFilePath owner.localStoragePath name) with
      | mk ok w₁ =>
        cases ok with
        | false => exact Or.inl ⟨rfl, rfl⟩
        | true =>
          simp only
          cases hopen : c.openReadOnly w₁ (c.absoluteFilePath owner.localStoragePath name) with
          | false => exact Or.inl ⟨by simp, by simp⟩
          | true =>
            exact Or.inr ⟨by simp,
              LocalObfResource c name ResourceType.MapRegion
                (c.fileSize w₁ (c.absoluteFilePath owner.localStoragePath name))
                (c.absoluteFilePath owner.localStoragePath name)
                (c.obtainInfo w₁ (c.absoluteFilePath owner.localStoragePath name)),
              rfl, rfl, by simp⟩

theorem installVoicePackFromFile_cases {W : Type} (c : Collaborators W)
    (owner : ResourcesManager) (w : W) (localResources : QHash LocalResource)
    (name filePath : QString) :
    ((installVoicePackFromFile c owner w localResources name filePath).1 = false
        ∧ (installVoicePackFromFile c owner w localResources name filePath).2.2
            = localResources)
      ∨ ((installVoicePackFromFile c owner w localResources name filePath).1 = true
        ∧ ∃ entry : LocalResource, entry.name = name ∧ entry.type = ResourceType.VoicePack
            ∧ (installVoicePackFromFile c owner w localResources name filePath).2.2
                = localResources.insert name entry) := by
  unfold installVoicePackFromFile
  cases c.getItems w filePath with
  | none => exact Or.inl ⟨rfl, rfl⟩
  | some archiveItems =>
    simp only
    cases archiveItems.find?
        (fun archiveItem => archiveItem.isValid && archiveItem.name == "_config.p".toList) with
    | none => exact Or.inl ⟨rfl, rfl⟩
    | some voicePackConfigItem =>
      simp only
      cases c.extractAllItemsTo w filePath
          (c.absoluteFilePath owner.localStoragePath name) with
      | mk ok rest =>
        obtain ⟨contentSize, w₁⟩ := rest
        cases ok with
        | false => exact Or.inl ⟨rfl, rfl⟩
        | true => exact Or.inr ⟨rfl, _, rfl, rfl, rfl⟩

theorem installFromFile_cases {W : Type} (c : Collaborators W) (owner : ResourcesManager)
    (w : W) (localResources : QHash LocalResource) (name filePath : QString)
    (resourceType : ResourceType) :
    ((installFromFile c owner w localResources name filePath resourceType).1 = false
        ∧ (installFromFile c owner w localResources name filePath resourceType).2.2
            = localResources)
      ∨ ((installFromFile c owner w localResources name filePath resourceType).1 = true
        ∧ isStoredType resourceType = true
        ∧ ∃ entry : LocalResource, entry.name = name ∧ entry.type = resourceType
            ∧ (installFromFile c owner w localResources name filePath resourceType).2.2
                = localResources.insert name entry) := by
  unfold installFromFile
  cases localResources.lookup name with
  | some existing => exact Or.inl ⟨rfl, rfl⟩
  | none =>
    cases resourceType with
    | Unknown => exact Or.inl ⟨rfl, rfl⟩
    | MapRegion =>
      rcases installMapRegionFromFile_cases c owner w localResources name filePath with h | h
      · exact Or.inl h
      · exact Or.inr ⟨h.1, rfl, h.2⟩
    | VoicePack =>
      rcases installVoicePackFromFile_cases c owner w localResources name filePath with h | h
      · exact Or.inl h
      · exact Or.inr ⟨h.1, rfl, h.2⟩

/-- C11: for every behaviour of the collaborators, every name, path and type, when
`installFromFile` returns true the name is installed in the registry it leaves
(`isResourceInstalled`), and `getLocalResource` gives an entry of that name and of the
requested type, which is `MapRegion` or `VoicePack`. -/
theorem installFromFile_success_is_installed {W : Type} (c : Collaborators W)
    (owner : ResourcesManager) (w : W) (localResources : QHash LocalResource)
    (name filePath : QString) (resourceType : ResourceType)
    (hsuccess : (installFromFile c owner w localResources name filePath resourceType).1
      = true) :
    isResourceInstalled
        (installFromFile c owner w localResources name filePath resourceType).2.2 name = true
    ∧ (resourceType = ResourceType.MapRegion ∨ resourceType = ResourceType.VoicePack)
    ∧ ∃ entry,
        getLocalResource
            (installFromFile c owner w localResources name filePath resourceType).2.2 name
          = some entry
        ∧ entry.name = name
        ∧ entry.type = resourceType := by
  rcases installFromFile_cases c owner w localResources name filePath resourceType with h | h
  · rw [h.1] at hsuccess
    exact absurd hsuccess (by simp)
  · obtain ⟨_, hstored, entry, hname, htype, hreg⟩ := h
    have hlook : ((installFromFile c owner w localResources name filePath
        resourceType).2.2).lookup name = some entry := by
      rw [hreg, AList.lookup_insert]
    refine ⟨?_, ?_, entry, hlook, hname, htype⟩
    · unfold isResourceInstalled
      rw [hlook]
      rfl
    · cases resourceType with
      | Unknown => exact absurd hstored (by decide)
      | MapRegion => exact Or.inl rfl
      | VoicePack => exact Or.inr rfl

/-- The fresh-install scenario: `germany.obf` installed from the archive is then installed
and found as a map region. -/
theorem installFromFile_success_is_installed_witness :
    isResourceInstalled
        (installFromFile fsCollaborators exampleOwner freshFs ∅ "germany.obf".toList
          "/t/a.zip".toList ResourceType.MapRegion).2.2 "germany.obf".toList = true
    ∧ (ResourceType.MapRegion = ResourceType.MapRegion
        ∨ ResourceType.MapRegion = ResourceType.VoicePack)
    ∧ ∃ entry,
        getLocalResource
            (installFromFile fsCollaborators exampleOwner freshFs ∅ "germany.obf".toList
              "/t/a.zip".toList ResourceType.MapRegion).2.2 "germany.obf".toList
          = some entry
        ∧ entry.name = "germany.obf".toList
        ∧ entry.type = ResourceType.MapRegion :=
  installFromFile_success_is_installed fsCollaborators exampleOwner freshFs ∅
    "germany.obf".toList "/t/a.zip".toList ResourceType.MapRegion (by decide)

/-! ## C12: the type `Unknown` is never stored -/

theorem parseIndexToken_type (codec : TextCodec) (url : QString) (token : XmlToken)
    (entry : ResourceInRepository) (h : parseIndexToken codec url token = some entry) :
    entry.type = ResourceType.MapRegion ∨ entry.type = ResourceType.VoicePack := by
  cases token with
  | Other => simp [parseIndexToken] at h
  | StartElement tag attribs =>
    revert h
    simp only [parseIndexToken]
    cases attributesValue attribs "type".toList with
    | none => simp
    | some ty =>
    cases attributesValue attribs "name".toList with
    | none => simp
    | some nm =>
    cases attributesValue attribs "timestamp".toList with
    | none => simp
    | some ts =>
    cases attributesValue attribs "containerSize".toList with
    | none => simp
    | some cs =>
    cases attributesValue attribs "contentSize".toList with
    | none => simp
    | some ct =>
      intro h
      cases h₆ : codec.toULongLong ts with
      | none => simp [h₆] at h
      | some t =>
      cases h₇ : codec.toULongLong cs with
      | none => simp [h₆, h₇] at h
      | some c =>
      cases h₈ : codec.toULongLong ct with
      | none => simp [h₆, h₇, h₈] at h
      | some z =>
        simp only [h₆, h₇, h₈] at h
        repeat' split at h
        all_goals
          cases h <;> first
            | exact Or.inl rfl
            | exact Or.inr rfl
            | exact absurd rfl (by assumption)

theorem parseIndexToken_other_type (codec : TextCodec) (url tag : QString)
    (attribs : List (QString × QString))
    (hmap : attributesValue attribs "type".toList ≠ some "map".toList)
    (hvoice : attributesValue attribs "type".toList ≠ some "voice".toList) :
    parseIndexToken codec url (XmlToken.StartElement tag attribs) = none := by
  cases h : parseIndexToken codec url (XmlToken.StartElement tag attribs) with
  | none => rfl
  | some entry =>
    exfalso
    have hacc : isAcceptedElement codec attribs = true := by
      rw [← parseIndexToken_isSome codec url tag attribs, h]
      rfl
    unfold isAcceptedElement at hacc
    have h₁ : (attributesValue attribs "type".toList == some "map".toList) = false :=
      beq_eq_false_iff_ne.mpr hmap
    have h₂ : (attributesValue attribs "type".toList == some "voice".toList) = false :=
      beq_eq_false_iff_ne.mpr hvoice
    rw [h₁, h₂] at hacc
    simp at hacc

theorem refreshRepositoryIndex_types (codec : TextCodec) (url : QString)
    (download : DownloadResult) (prior : QHash ResourceInRepository)
    (hprior : ∀ key entry, prior.lookup key = some entry →
      entry.type = ResourceType.MapRegion ∨ entry.type = ResourceType.VoicePack) :
    ∀ key entry, (refreshRepositoryIndex codec url download prior).2.lookup key = some entry →
      entry.type = ResourceType.MapRegion ∨ entry.type = ResourceType.VoicePack := by
  intro key entry hlook
  unfold refreshRepositoryIndex at hlook
  cases hdata : download.data with
  | none =>
    simp only [hdata] at hlook
    exact hprior key entry hlook
  | some xml =>
    simp only [hdata] at hlook
    split at hlook
    · exact hprior key entry hlook
    · split at hlook
      · exact hprior key entry hlook
      · simp only at hlook
        rw [lookup_saveIndex, parseIndexTokens_eq_filterMap] at hlook
        obtain ⟨token, _, htoken⟩ := List.mem_filterMap.mp (lastNamed_some hlook).1
        exact parseIndexToken_type codec url token entry htoken

theorem rescanLocalStoragePaths_types {W : Type} (c : Collaborators W)
    (owner : ResourcesManager) (w : W) (prior : QHash LocalResource) :
    ∀ key entry, (rescanLocalStoragePaths c owner w prior).2.lookup key = some entry →
      entry.type = ResourceType.MapRegion ∨ entry.type = ResourceType.VoicePack := by
  intro key entry hlook
  rw [lookup_rescanLocalStoragePaths] at hlook
  obtain ⟨root, _, hmem⟩ := List.mem_flatMap.mp (lastNamed_some hlook).1
  rcases mem_scannedEntries_localPath c w root entry hmem with
    ⟨_, _, _, _, ht, _⟩ | ⟨_, _, _, _, ht⟩
  · exact Or.inl ht
  · exact Or.inr ht

theorem installFromFile_types {W : Type} (c : Collaborators W) (owner : ResourcesManager)
    (w : W) (prior : QHash LocalResource) (name filePath : QString)
    (resourceType : ResourceType)
    (hprior : ∀ key entry, prior.lookup key = some entry →
      entry.type = ResourceType.MapRegion ∨ entry.type = ResourceType.VoicePack) :
    ∀ key entry,
      (installFromFile c owner w prior name filePath resourceType).2.2.lookup key
        = some entry →
      entry.type = ResourceType.MapRegion ∨ entry.type = ResourceType.VoicePack := by
  intro key entry hlook
  rcases installFromFile_cases c owner w prior name filePath resourceType with h | h
  · rw [h.2] at hlook
    exact hprior key entry hlook
  · obtain ⟨_, hstored, installed, _, htype, hreg⟩ := h
    rw [hreg] at hlook
    by_cases hkey : key = name
    · subst hkey
      rw [AList.lookup_insert] at hlook
      have hsame : installed = entry := Option.some.inj hlook
      rw [← hsame, htype]
      cases resourceType with
      | Unknown => exact absurd hstored (by decide)
      | MapRegion => exact Or.inl rfl
      | VoicePack => exact Or.inr rfl
    · rw [AList.lookup_insert_ne hkey] at hlook
      exact hprior key entry hlook

theorem uninstallResource_registry {W : Type} (c : Collaborators W) (w : W)
    (prior : QHash LocalResource) (name : QString) :
    (uninstallResource c w prior name).2.2 = prior
      ∨ (uninstallResource c w prior name).2.2 = prior.erase name := by
  unfold uninstallResource
  cases prior.lookup name with
  | none => exact Or.inl rfl
  | some resource =>
    simp only
    cases resource.type with
    | Unknown => exact Or.inl rfl
    | MapRegion =>
      simp only
      cases uninstallMapRegion c w resource with
      | mk ok w₁ => cases ok <;> simp
    | VoicePack =>
      simp only
      cases uninstallVoicePack c w resource with
      | mk ok w₁ => cases ok <;> simp

theorem uninstallResource_types {W : Type} (c : Collaborators W) (w : W)
    (prior : QHash LocalResource) (name : QString)
    (hprior : ∀ key entry, prior.lookup key = some entry →
      entry.type = ResourceType.MapRegion ∨ entry.type = ResourceType.VoicePack) :
    ∀ key entry, (uninstallResource c w prior name).2.2.lookup key = some entry →
      entry.type = ResourceType.MapRegion ∨ entry.type = ResourceType.VoicePack := by
  intro key entry hlook
  rcases uninstallResource_registry c w prior name with h | h
  · rw [h] at hlook
    exact hprior key entry hlook
  · rw [h] at hlook
    by_cases hkey : key = name
    · subst hkey
      rw [AList.lookup_erase] at hlook
      exact absurd hlook (by simp)
    · rw [AList.lookup_erase_ne hkey] at hlook
      exact hprior key entry hlook

theorem stepManager_types {W : Type} (c : Collaborators W) (codec : TextCodec)
    (owner : ResourcesManager) (s : ManagerState W) (operation : Operation W)
    (hlocal : ∀ key entry, s.localResources.lookup key = some entry →
      entry.type = ResourceType.MapRegion ∨ entry.type = ResourceType.VoicePack)
    (hremote : ∀ key entry, s.repositoryIndex.lookup key = some entry →
      entry.type = ResourceType.MapRegion ∨ entry.type = ResourceType.VoicePack) :
    (∀ key entry, (stepManager c codec owner s operation).localResources.lookup key
        = some entry →
      entry.type = ResourceType.MapRegion ∨ entry.type = ResourceType.VoicePack)
    ∧ (∀ key entry, (stepManager c codec owner s operation).repositoryIndex.lookup key
        = some entry →
      entry.type = ResourceType.MapRegion ∨ entry.type = ResourceType.VoicePack) := by
  cases operation with
  | refreshCatalog download =>
    exact ⟨hlocal, refreshRepositoryIndex_types codec _ download _ hremote⟩
  | rescan => exact ⟨rescanLocalStoragePaths_types c owner _ _, hremote⟩
  | installFromFile name filePath resourceType =>
    exact ⟨installFromFile_types c owner _ _ name filePath resourceType hlocal, hremote⟩
  | uninstall name => exact ⟨uninstallResource_types c _ _ name hlocal, hremote⟩
  | environment world => exact ⟨hlocal, hremote⟩

theorem runManager_types {W : Type} (c : Collaborators W) (codec : TextCodec)
    (owner : ResourcesManager) (world : W) (operations : List (Operation W)) :
    (∀ key entry, (runManager c codec owner world operations).localResources.lookup key
        = some entry →
      entry.type = ResourceType.MapRegion ∨ entry.type = ResourceType.VoicePack)
    ∧ (∀ key entry, (runManager c codec owner world operations).repositoryIndex.lookup key
        = some entry →
      entry.type = ResourceType.MapRegion ∨ entry.type = ResourceType.VoicePack) := by
  unfold runManager
  induction operations using List.reverseRecOn with
  | nil =>
    constructor <;>
      · intro key entry h
        simp at h
  | append_singleton ops op ih =>
    rw [List.foldl_append]
    exact stepManager_types c codec owner _ op ih.1 ih.2

/-- C12: in every state reached from empty registries by any sequence of catalog
refreshes, rescans, installs from file and uninstalls, for any behaviour of the
collaborators and any changes of the world in between, every entry of the local registry
and every entry of the repository index has type `MapRegion` or `VoicePack`; a catalog
element whose `type` attribute is neither `map` nor `voice` yields no entry; and
`installFromFile` with type `Unknown` returns false with the world and the registry it
was given. -/
theorem unknown_type_never_stored {W : Type} (c : Collaborators W) (codec : TextCodec)
    (owner : ResourcesManager) (world : W) (operations : List (Operation W)) :
    (∀ key entry, (runManager c codec owner world operations).localResources.lookup key
        = some entry →
      entry.type = ResourceType.MapRegion ∨ entry.type = ResourceType.VoicePack)
    ∧ (∀ key entry, (runManager c codec owner world operations).repositoryIndex.lookup key
        = some entry →
      entry.type = ResourceType.MapRegion ∨ entry.type = ResourceType.VoicePack)
    ∧ (∀ url tag attribs,
        attributesValue attribs "type".toList ≠ some "map".toList →
        attributesValue attribs "type".toList ≠ some "voice".toList →
        parseIndexToken codec url (XmlToken.StartElement tag attribs) = none)
    ∧ (∀ (w : W) (localResources : QHash LocalResource) (name filePath : QString),
        installFromFile c owner w localResources name filePath ResourceType.Unknown
          = (false, w, localResources)) := by
  refine ⟨(runManager_types c codec owner world operations).1,
    (runManager_types c codec owner world operations).2,
    fun url tag attribs => parseIndexToken_other_type codec url tag attribs, ?_⟩
  intro w localResources name filePath
  unfold installFromFile
  cases localResources.lookup name <;> rfl

/-- On the example run the `poi` element yields no entry, and the entry found for
`germany.obf` after the run is a map region. -/
theorem unknown_type_never_stored_witness :
    parseIndexToken exampleCodec "u".toList (catalogElement "poi" "x.zip" "1" "2" "3") = none
    ∧ ((⟨"germany.obf".toList, ResourceType.MapRegion, 1, 200, "/s/germany.obf".toList,
          some ⟨1⟩⟩ : LocalResource).type = ResourceType.MapRegion
        ∨ (⟨"germany.obf".toList, ResourceType.MapRegion, 1, 200, "/s/germany.obf".toList,
          some ⟨1⟩⟩ : LocalResource).type = ResourceType.VoicePack)
    ∧ (runManager fsCollaborators exampleCodec exampleOwner freshFs
        exampleOperations).repositoryIndex.keys = ["germany.obf".toList] :=
  ⟨(unknown_type_never_stored fsCollaborators exampleCodec exampleOwner freshFs
      exampleOperations).2.2.1 "u".toList "resource".toList _ (by decide) (by decide),
   (unknown_type_never_stored fsCollaborators exampleCodec exampleOwner freshFs
      exampleOperations).1 "germany.obf".toList _ (by decide),
   by decide⟩

/-! ## C13: the list of updates and the test for one name -/

theorem updateAvailableInRepositoryFor_iff (localResources : QHash LocalResource)
    (repositoryIndex : QHash ResourceInRepository) (name : QString) :
    updateAvailableInRepositoryFor localResources repositoryIndex name = true
      ↔ ∃ localResource resourceInRepository,
          localResources.lookup name = some localResource
          ∧ repositoryIndex.lookup name = some resourceInRepository
          ∧ localResource.timestamp < resourceInRepository.timestamp := by
  unfold updateAvailableInRepositoryFor getResourceInRepository getLocalResource
  cases repositoryIndex.lookup name with
  | none => simp
  | some r =>
    cases localResources.lookup name with
    | none => simp
    | some l => simp

theorem values_map_name_eq_keys (localResources : QHash LocalResource)
    (hkeys : ∀ key localResource, localResources.lookup key = some localResource →
      localResource.name = key) :
    (QHash.values localResources).map LocalResource.name = localResources.keys := by
  unfold QHash.values AList.keys List.keys
  rw [List.map_map]
  apply List.map_congr_left
  rintro ⟨key, l⟩ hmem
  exact hkeys key l (AList.mem_lookup_iff.mpr hmem)

theorem filterMap_name_sublist (f : LocalResource → Option QString)
    (hf : ∀ l name, f l = some name → name = l.name) :
    ∀ entries : List LocalResource,
      List.Sublist (entries.filterMap f) (entries.map LocalResource.name)
  | [] => List.Sublist.slnil
  | l :: rest => by
    rw [List.filterMap_cons, List.map_cons]
    cases h : f l with
    | none => exact List.Sublist.cons _ (filterMap_name_sublist f hf rest)
    | some name =>
      simp only
      rw [hf l name h]
      exact List.Sublist.cons₂ _ (filterMap_name_sublist f hf rest)

/-- C13: for a local registry whose keys are the names of their entries and every
repository index, a name is in the list of `getAvailableUpdatesFromRepository` exactly when
`updateAvailableInRepositoryFor` returns true for it, and the list has no name twice. -/
theorem availableUpdates_iff_updateAvailable (localResources : QHash LocalResource)
    (repositoryIndex : QHash ResourceInRepository)
    (hkeys : ∀ key localResource, localResources.lookup key = some localResource →
      localResource.name = key) :
    (∀ name, name ∈ getAvailableUpdatesFromRepository localResources repositoryIndex
        ↔ updateAvailableInRepositoryFor localResources repositoryIndex name = true)
    ∧ (getAvailableUpdatesFromRepository localResources repositoryIndex).Nodup := by
  constructor
  · intro name
    rw [mem_getAvailableUpdatesFromRepository, updateAvailableInRepositoryFor_iff]
    constructor
    · rintro ⟨key, l, r, hkey, hn, hr, hlt⟩
      have hk : key = name := by rw [← hkeys key l hkey, hn]
      subst hk
      exact ⟨l, r, hkey, hr, hlt⟩
    · rintro ⟨l, r, hl, hr, hlt⟩
      exact ⟨name, l, r, hl, hkeys name l hl, hr, hlt⟩
  · rw [getAvailableUpdatesFromRepository_eq_filterMap]
    apply List.Nodup.sublist (filterMap_name_sublist _ ?_ _)
    · rw [values_map_name_eq_keys localResources hkeys]
      exact AList.keys_nodup localResources
    · intro l name hf
      cases hr : getResourceInRepository repositoryIndex l.name with
      | none => simp [hr] at hf
      | some r =>
        simp only [hr] at hf
        split at hf
        · exact (Option.some.inj hf).symm
        · exact absurd hf (by simp)

/-- The update-detection scenario: the local `germany.obf` is older than the catalog's, the
test for the name is true and the list of updates is that one name. -/
theorem availableUpdates_iff_updateAvailable_witness :
    ("germany.obf".toList ∈ getAvailableUpdatesFromRepository outdatedRegistry newerIndex
        ↔ updateAvailableInRepositoryFor outdatedRegistry newerIndex "germany.obf".toList
            = true)
    ∧ (getAvailableUpdatesFromRepository outdatedRegistry newerIndex).Nodup
    ∧ getAvailableUpdatesFromRepository outdatedRegistry newerIndex = ["germany.obf".toList]
    ∧ updateAvailableInRepositoryFor outdatedRegistry newerIndex "germany.obf".toList = true :=
  let h := availableUpdates_iff_updateAvailable outdatedRegistry newerIndex
    (keysAreNames_sound outdatedRegistry (by decide))
  ⟨h.1 "germany.obf".toList, h.2, by decide, by decide⟩

/-! ## C4: available updates on the registries of the manager -/

theorem stepManager_keys {W : Type} (c : Collaborators W) (codec : TextCodec)
    (owner : ResourcesManager) (s : ManagerState W) (operation : Operation W)
    (hkeys : ∀ key entry, s.localResources.lookup key = some entry → entry.name = key) :
    ∀ key entry, (stepManager c codec owner s operation).localResources.lookup key
        = some entry → entry.name = key := by
  intro key entry hlook
  cases operation with
  | refreshCatalog download => exact hkeys key entry hlook
  | environment world => exact hkeys key entry hlook
  | rescan =>
    have hlook' : (rescanLocalStoragePaths c owner s.world s.localResources).2.lookup key
        = some entry := hlook
    rw [lookup_rescanLocalStoragePaths] at hlook'
    exact (lastNamed_some hlook').2
  | installFromFile name filePath resourceType =>
    have hlook' : (installFromFile c owner s.world s.localResources name filePath
        resourceType).2.2.lookup key = some entry := hlook
    rcases installFromFile_cases c owner s.world s.localResources name filePath
        resourceType with h | h
    · rw [h.2] at hlook'
      exact hkeys key entry hlook'
    · obtain ⟨_, _, installed, hname, _, hreg⟩ := h
      rw [hreg] at hlook'
      by_cases hkey : key = name
      · subst hkey
        rw [AList.lookup_insert] at hlook'
        rw [← Option.some.inj hlook']
        exact hname
      · rw [AList.lookup_insert_ne hkey] at hlook'
        exact hkeys key entry hlook'
  | uninstall name =>
    have hlook' : (uninstallResource c s.world s.localResources name).2.2.lookup key
        = some entry := hlook
    rcases uninstallResource_registry c s.world s.localResources name with h | h
    · rw [h] at hlook'
      exact hkeys key entry hlook'
    · rw [h] at hlook'
      by_cases hkey : key = name
      · subst hkey
        rw [AList.lookup_erase] at hlook'
        exact absurd hlook' (by simp)
      · rw [AList.lookup_erase_ne hkey] at hlook'
        exact hkeys key entry hlook'

theorem runManager_keys {W : Type} (c : Collaborators W) (codec : TextCodec)
    (owner : ResourcesManager) (world : W) (operations : List (Operation W)) :
    ∀ key entry, (runManager c codec owner world operations).localResources.lookup key
        = some entry → entry.name = key := by
  unfold runManager
  induction operations using List.reverseRecOn with
  | nil =>
    intro key entry h
    simp at h
  | append_singleton ops op ih =>
    rw [List.foldl_append]
    exact stepManager_keys c codec owner _ op ih

/-- C4: for every local registry the manager holds, that is the registry after any
sequence of catalog refreshes, rescans, installs from file and uninstalls from empty
registries (for any behaviour of the collaborators and any changes of the world in
between; `updateFromFile` never changes a registry), and for every remote registry, each
name in the list returned by `getAvailableUpdatesFromRepository` is a key of both
registries and the local entry's timestamp is strictly less than the remote entry's. -/
theorem availableUpdates_sound_on_runs {W : Type} (c : Collaborators W) (codec : TextCodec)
    (owner : ResourcesManager) (world : W) (operations : List (Operation W))
    (repositoryIndex : QHash ResourceInRepository) (name : QString)
    (hname : name ∈ getAvailableUpdatesFromRepository
      (runManager c codec owner world operations).localResources repositoryIndex) :
    ∃ localResource resourceInRepository,
      getLocalResource (runManager c codec owner world operations).localResources name
        = some localResource
      ∧ getResourceInRepository repositoryIndex name = some resourceInRepository
      ∧ localResource.timestamp < resourceInRepository.timestamp := by
  obtain ⟨key, l, r, hkey, hn, hr, hlt⟩ :=
    (mem_getAvailableUpdatesFromRepository _ _ _).mp hname
  have hk : key = name := by
    rw [← runManager_keys c codec owner world operations key l hkey, hn]
  subst hk
  exact ⟨l, r, hkey, hr, hlt⟩

/-- After the example run the local `germany.obf` has timestamp 1 and the catalog has it
with timestamp 1000: the name is in the list, a key of both, and older locally. -/
theorem availableUpdates_sound_on_runs_witness :
    ∃ localResource resourceInRepository,
      getLocalResource
          (runManager fsCollaborators exampleCodec exampleOwner freshFs
            exampleOperations).localResources "germany.obf".toList = some localResource
      ∧ getResourceInRepository
          (runManager fsCollaborators exampleCodec exampleOwner freshFs
            exampleOperations).repositoryIndex "germany.obf".toList
          = some resourceInRepository
      ∧ localResource.timestamp < resourceInRepository.timestamp :=
  availableUpdates_sound_on_runs fsCollaborators exampleCodec exampleOwner freshFs
    exampleOperations
    (runManager fsCollaborators exampleCodec exampleOwner freshFs
      exampleOperations).repositoryIndex "germany.obf".toList (by decide)

/-! ## C2: which elements of the catalog are stored -/

theorem lastNamed_singleton {V : Type} (nameOf : V → QString) (e : V) :
    lastNamed nameOf (nameOf e) [e] = some e := by
  simp [lastNamed]

/-- C2, as stated, fails: the document holds `a.obf.zip` (timestamp 1) and then `a.obf`
(timestamp 4); both elements are accepted and the refresh succeeds, both have the key
`a.obf`, and the index afterwards holds the entry of the second element only: the entry of
the first accepted element is not stored. -/
theorem refresh_drops_earlier_entry_of_same_key :
    isAcceptedElement exampleCodec
        [("type".toList, "map".toList), ("name".toList, "a.obf.zip".toList),
         ("timestamp".toList, "1".toList), ("containerSize".toList, "2".toList),
         ("contentSize".toList, "3".toList)] = true
    ∧ isAcceptedElement exampleCodec
        [("type".toList, "map".toList), ("name".toList, "a.obf".toList),
         ("timestamp".toList, "4".toList), ("containerSize".toList, "5".toList),
         ("contentSize".toList, "6".toList)] = true
    ∧ (refreshRepositoryIndex exampleCodec "u".toList
        ⟨some ⟨[catalogElement "map" "a.obf.zip" "1" "2" "3",
                catalogElement "map" "a.obf" "4" "5" "6"], false⟩, true⟩ ∅).1 = true
    ∧ parseIndexToken exampleCodec "u".toList (catalogElement "map" "a.obf.zip" "1" "2" "3")
        = some ⟨"a.obf".toList, ResourceType.MapRegion, 1, 3,
            "u/download.php?file=a.obf.zip".toList, 2⟩
    ∧ (QHash.values (refreshRepositoryIndex exampleCodec "u".toList
        ⟨some ⟨[catalogElement "map" "a.obf.zip" "1" "2" "3",
                catalogElement "map" "a.obf" "4" "5" "6"], false⟩, true⟩ ∅).2)
        = [⟨"a.obf".toList, ResourceType.MapRegion, 4, 6,
            "u/download.php?file=a.obf".toList, 5⟩]
    ∧ (⟨"a.obf".toList, ResourceType.MapRegion, 1, 3,
          "u/download.php?file=a.obf.zip".toList, 2⟩ : ResourceInRepository)
        ∉ QHash.values (refreshRepositoryIndex exampleCodec "u".toList
            ⟨some ⟨[catalogElement "map" "a.obf.zip" "1" "2" "3",
                    catalogElement "map" "a.obf" "4" "5" "6"], false⟩, true⟩ ∅).2 := by
  decide

/-- C2, amended: on a document read without error after a successful request the refresh
succeeds whatever its elements are. An element of the document yields an entry exactly
when it is accepted (all five attributes, type `map` or `voice`, three numbers that
parse); a skipped element can be removed from the document without changing the saved
index. Under each key the index keeps the entry of the last accepted element with that
key: for an accepted element the entry under its key is the entry of the last accepted
element after it with the same key, or its own when there is none, so its own entry is
stored exactly when it is the last accepted element of its key or the last one yields the
same entry.
Every entry of the index is the entry of an accepted element of the document. -/
theorem refreshRepositoryIndex_stores_last_accepted (codec : TextCodec) (url : QString)
    (before after : List XmlToken) (tag : QString) (attribs : List (QString × QString))
    (prior : QHash ResourceInRepository) :
    (refreshRepositoryIndex codec url
        ⟨some ⟨before ++ XmlToken.StartElement tag attribs :: after, false⟩, true⟩ prior).1
      = true
    ∧ ((parseIndexToken codec url (XmlToken.StartElement tag attribs)).isSome
        = isAcceptedElement codec attribs)
    ∧ (isAcceptedElement codec attribs = false →
        (refreshRepositoryIndex codec url
            ⟨some ⟨before ++ XmlToken.StartElement tag attribs :: after, false⟩, true⟩
            prior).2
          = (refreshRepositoryIndex codec url ⟨some ⟨before ++ after, false⟩, true⟩ prior).2)
    ∧ (isAcceptedElement codec attribs = true →
        ∃ entry, parseIndexToken codec url (XmlToken.StartElement tag attribs) = some entry
          ∧ (refreshRepositoryIndex codec url
                ⟨some ⟨before ++ XmlToken.StartElement tag attribs :: after, false⟩, true⟩
                prior).2.lookup entry.name
              = some ((lastNamed ResourceInRepository.name entry.name
                  (after.filterMap (parseIndexToken codec url))).getD entry)
          ∧ ((refreshRepositoryIndex codec url
                ⟨some ⟨before ++ XmlToken.StartElement tag attribs :: after, false⟩, true⟩
                prior).2.lookup entry.name = some entry
              ↔ ∀ later, lastNamed ResourceInRepository.name entry.name
                  (after.filterMap (parseIndexToken codec url)) = some later →
                  later = entry)
          ∧ ((∀ token ∈ after, ∀ later, parseIndexToken codec url token = some later →
                later.name ≠ entry.name) →
              (refreshRepositoryIndex codec url
                ⟨some ⟨before ++ XmlToken.StartElement tag attribs :: after, false⟩, true⟩
                prior).2.lookup entry.name = some entry))
    ∧ (∀ name entry,
        (refreshRepositoryIndex codec url
            ⟨some ⟨before ++ XmlToken.StartElement tag attribs :: after, false⟩, true⟩
            prior).2.lookup name = some entry →
        ∃ tag' attribs',
          XmlToken.StartElement tag' attribs'
            ∈ before ++ XmlToken.StartElement tag attribs :: after
          ∧ isAcceptedElement codec attribs' = true
          ∧ parseIndexToken codec url (XmlToken.StartElement tag' attribs') = some entry)
    ∧ (∀ name,
        (refreshRepositoryIndex codec url
            ⟨some ⟨before ++ XmlToken.StartElement tag attribs :: after, false⟩, true⟩
            prior).2.lookup name
          = lastNamed ResourceInRepository.name name
              ((before ++ XmlToken.StartElement tag attribs :: after).filterMap
                (parseIndexToken codec url))) := by
  have hrun : ∀ ts : List XmlToken,
      refreshRepositoryIndex codec url ⟨some ⟨ts, false⟩, true⟩ prior
        = (true, saveIndex (ts.filterMap (parseIndexToken codec url))) := by
    intro ts
    simp [refreshRepositoryIndex, parseIndexTokens_eq_filterMap]
  rw [hrun]
  refine ⟨rfl, parseIndexToken_isSome codec url tag attribs, ?_, ?_, ?_, ?_⟩
  · intro hskip
    rw [hrun]
    have hnone : parseIndexToken codec url (XmlToken.StartElement tag attribs) = none := by
      rw [← parseIndexToken_isSome codec url tag attribs] at hskip
      cases h : parseIndexToken codec url (XmlToken.StartElement tag attribs) with
      | none => rfl
      | some e => rw [h] at hskip; exact absurd hskip (by simp)
    show saveIndex _ = saveIndex _
    simp [List.filterMap_append, hnone]
  · intro hacc
    rw [← parseIndexToken_isSome codec url tag attribs, Option.isSome_iff_exists] at hacc
    obtain ⟨entry, hentry⟩ := hacc
    have hlook : (saveIndex ((before ++ XmlToken.StartElement tag attribs :: after).filterMap
          (parseIndexToken codec url))).lookup entry.name
        = some ((lastNamed ResourceInRepository.name entry.name
            (after.filterMap (parseIndexToken codec url))).getD entry) := by
      rw [lookup_saveIndex, List.filterMap_append, List.filterMap_cons, hentry]
      simp only
      have hcons : entry :: after.filterMap (parseIndexToken codec url)
          = [entry] ++ after.filterMap (parseIndexToken codec url) := rfl
      rw [hcons, lastNamed_append, lastNamed_append,
        lastNamed_singleton ResourceInRepository.name entry]
      cases lastNamed ResourceInRepository.name entry.name
          (after.filterMap (parseIndexToken codec url)) with
      | none => rfl
      | some later => rfl
    refine ⟨entry, hentry, hlook, ?_, ?_⟩
    · show (saveIndex _).lookup entry.name = some entry ↔ _
      rw [hlook]
      cases lastNamed ResourceInRepository.name entry.name
          (after.filterMap (parseIndexToken codec url)) with
      | none => simp
      | some later => simp
    · intro hnone
      show (saveIndex _).lookup entry.name = some entry
      rw [hlook, lastNamed_eq_none]
      · rfl
      · intro later hlater
        obtain ⟨token, htoken, hparse⟩ := List.mem_filterMap.mp hlater
        exact hnone token htoken later hparse
  · intro name entry hlook
    have hlook' : (saveIndex ((before ++ XmlToken.StartElement tag attribs :: after).filterMap
        (parseIndexToken codec url))).lookup name = some entry := hlook
    rw [lookup_saveIndex] at hlook'
    obtain ⟨token, hmem, hentry⟩ := List.mem_filterMap.mp (lastNamed_some hlook').1
    cases token with
    | Other => simp [parseIndexToken] at hentry
    | StartElement tag' attribs' =>
      refine ⟨tag', attribs', hmem, ?_, hentry⟩
      rw [← parseIndexToken_isSome codec url tag' attribs', hentry]
      rfl
  · intro name
    exact lookup_saveIndex _ name

/-- The scenario of the specification: one valid `map` element followed by an element
without `timestamp`; the entry of the valid element is the one stored under its key. -/
theorem refreshRepositoryIndex_stores_last_accepted_witness :
    ∃ entry,
      parseIndexToken exampleCodec "u".toList
          (catalogElement "map" "germany.obf.zip" "1000" "50" "200") = some entry
      ∧ (refreshRepositoryIndex exampleCodec "u".toList
            ⟨some ⟨[] ++ catalogElement "map" "germany.obf.zip" "1000" "50" "200"
                :: [XmlToken.StartElement "resource".toList
                      [("type".toList, "map".toList), ("name".toList, "x.obf.zip".toList),
                       ("containerSize".toList, "5".toList),
                       ("contentSize".toList, "9".toList)]], false⟩, true⟩ ∅).2.lookup
          entry.name = some entry :=
  match (refreshRepositoryIndex_stores_last_accepted exampleCodec "u".toList []
    [XmlToken.StartElement "resource".toList
      [("type".toList, "map".toList), ("name".toList, "x.obf.zip".toList),
       ("containerSize".toList, "5".toList), ("contentSize".toList, "9".toList)]]
    "resource".toList
    [("type".toList, "map".toList), ("name".toList, "germany.obf.zip".toList),
     ("timestamp".toList, "1000".toList), ("containerSize".toList, "50".toList),
     ("contentSize".toList, "200".toList)] ∅).2.2.2.1 (by decide) with
  | ⟨entry, hentry, _, _, hstored⟩ =>
    ⟨entry, hentry, hstored (fun token htoken later hparse => by
      have hnone : parseIndexToken exampleCodec "u".toList
          (XmlToken.StartElement "resource".toList
            [("type".toList, "map".toList), ("name".toList, "x.obf.zip".toList),
             ("containerSize".toList, "5".toList), ("contentSize".toList, "9".toList)])
          = none := by decide
      rw [List.mem_singleton.mp htoken, hnone] at hparse
      exact absurd hparse (by simp))⟩

/-! ## C9: install, then rescan, for every coherent file system -/

/-- When the `.size` file cannot be written, which `installVoicePackFromFile` does not
test, the install of `english.voice` still returns true and records 60 bytes, and the
rescan, finding no `.size`, gives the same name a content size of 0. -/
theorem install_then_rescan_loses_unwritten_size :
    (installFromFile silentWriteCollaborators exampleOwner freshFs ∅ "english.voice".toList
        "/t/v.zip".toList ResourceType.VoicePack).1 = true
    ∧ (getLocalResource
        (installFromFile silentWriteCollaborators exampleOwner freshFs ∅
          "english.voice".toList "/t/v.zip".toList ResourceType.VoicePack).2.2
        "english.voice".toList).map (fun e => e.contentSize) = some 60
    ∧ (getLocalResource
        (rescanLocalStoragePaths silentWriteCollaborators exampleOwner
          (installFromFile silentWriteCollaborators exampleOwner freshFs ∅
            "english.voice".toList "/t/v.zip".toList ResourceType.VoicePack).2.1
          (installFromFile silentWriteCollaborators exampleOwner freshFs ∅
            "english.voice".toList "/t/v.zip".toList ResourceType.VoicePack).2.2).2
        "english.voice".toList).map (fun e => e.contentSize) = some 0 := by
  decide

end OsmAnd
